import Mathlib

/-!
# fastar: region partitioning of a `samtools depth` stream

A shallow embedding of `main.go` of fastar.  The two stream functions of the
program, `sumColumnThree` and `calculateRegions`, are embedded as functions of
the list of lines that `bufio.Scanner` hands to their loop bodies.

* A line is a list of byte values (`Nat`), as returned by `scanner.Bytes()`.
* Go's `int64` (and `int`, taken to be 64 bits wide) is embedded as `Int`, and
  every arithmetic operation of the source is followed by `wrap64`, the
  reduction to the two's complement range `[-2^63, 2^63)`.
* An index past the end of the line (a Go run-time panic) is `none`.
* `fmt.Printf("%s:%d-%d\n", ...)` is embedded as the emission of a `Region`.
-/

namespace Fastar

/-- A byte string: the contents of a Go `[]byte` or `string`. -/
abbrev Bytes := List Nat

/-- Reduction of an integer to the range of a Go `int64`. -/
def wrap64 (x : Int) : Int :=
  (x + 9223372036854775808) % 18446744073709551616 - 9223372036854775808

/-- The values a Go `int64` can hold. -/
def IsInt64 (x : Int) : Prop :=
  -9223372036854775808 ≤ x ∧ x < 9223372036854775808

instance (x : Int) : Decidable (IsInt64 x) :=
  inferInstanceAs (Decidable (_ ∧ _))

/-- The ASCII code of the tab byte. -/
def tab : Nat := 9

/-! ## Line parsing -/

/-- The loop `for b[i] != '\t' { i++ }`: the bytes before the first tab and the
bytes after it, or `none` when the index runs past the end of the line. -/
def splitTab : Bytes → Option (Bytes × Bytes)
  | [] => none
  | c :: cs =>
    if c = tab then some ([], cs)
    else match splitTab cs with
      | none => none
      | some (field, rest) => some (c :: field, rest)

/-- One round of `v = v*10 + int64(b[i]) - '0'`. -/
def addDigit (v : Int) (c : Nat) : Int :=
  wrap64 (wrap64 (wrap64 (v * 10) + (c : Int)) - 48)

/-- The accumulation `v = v*10 + int64(b[i]) - '0'` over the bytes of a field,
starting from `v = 0`. -/
def parseNum (field : Bytes) : Int :=
  field.foldl addDigit 0

/-- A parsed line of the depth file. -/
structure Record where
  seq : Bytes
  pos : Int
  depth : Int
deriving DecidableEq, Repr

/-- The parsing part of the loop body of `calculateRegions` (lines 226-241). -/
def parseLine (b : Bytes) : Option Record :=
  match splitTab b with
  | none => none
  | some (seq, rest) =>
    match splitTab rest with
    | none => none
    | some (posField, depthField) =>
      some ⟨seq, parseNum posField, parseNum depthField⟩

/-- The parsing part of the loop body of `sumColumnThree` (lines 184-196): the
first two fields are skipped, the third is accumulated. -/
def parseDepth (b : Bytes) : Option Int :=
  match splitTab b with
  | none => none
  | some (_, rest) =>
    match splitTab rest with
    | none => none
    | some (_, depthField) => some (parseNum depthField)

/-! ## sumColumnThree -/

/-- The scanner loop of `sumColumnThree`, from a running `sum`. -/
def sumLoop : Int → List Bytes → Option Int
  | sum, [] => some sum
  | sum, b :: bs =>
    match parseDepth b with
    | none => none
    | some depth => sumLoop (wrap64 (sum + depth)) bs

/-- `sumColumnThree` on the lines of the file. -/
def sumColumnThree (lines : List Bytes) : Option Int :=
  sumLoop 0 lines

/-! ## calculateRegions -/

/-- An output line `seq:start-stop`. -/
structure Region where
  seq : Bytes
  start : Int
  stop : Int
deriving DecidableEq, Repr

/-- The local variables of `calculateRegions` that live across iterations. -/
structure State where
  prevSeq : Bytes
  startPos : Int
  lastPos : Int
  bpInRegion : Int
deriving DecidableEq, Repr

/-- The zero values of `var prevSeq string` and
`var startPos, lastPos, bpInRegion int64`. -/
def State.init : State := ⟨[], 0, 0, 0⟩

/-- The `if prevSeq != seq { ... }` block (lines 245-255). -/
def seqChange (s : State) (r : Record) : State × List Region :=
  if s.prevSeq ≠ r.seq then
    if s.prevSeq = [] then
      ({ s with prevSeq := r.seq, startPos := r.pos }, [])
    else
      ({ s with startPos := r.pos, prevSeq := r.seq, bpInRegion := 0 },
        [⟨s.prevSeq, s.startPos, s.lastPos⟩])
  else (s, [])

/-- The accumulation and the `if bpInRegion > bpPerRegion { ... }` block
(lines 257-262). -/
def overrun (bpPerRegion : Int) (s : State) (r : Record) : State × List Region :=
  let bp := wrap64 (s.bpInRegion + r.depth)
  if bp > bpPerRegion then
    ({ s with startPos := wrap64 (r.pos + 1), bpInRegion := 0 },
      [⟨r.seq, s.startPos, r.pos⟩])
  else ({ s with bpInRegion := bp }, [])

/-- One iteration of the scanner loop of `calculateRegions` on a parsed line
(lines 245-264): the new state and the regions printed. -/
def step (bpPerRegion : Int) (s : State) (r : Record) : State × List Region :=
  let a := seqChange s r
  let b := overrun bpPerRegion a.1 r
  ({ b.1 with lastPos := r.pos }, a.2 ++ b.2)

/-- The scanner loop of `calculateRegions` over parsed lines. -/
def loop (bpPerRegion : Int) : State → List Record → State × List Region
  | s, [] => (s, [])
  | s, r :: rs =>
    let a := step bpPerRegion s r
    let b := loop bpPerRegion a.1 rs
    (b.1, a.2 ++ b.2)

/-- The statement after the loop (lines 267-269). -/
def flush (s : State) : List Region :=
  if s.lastPos > s.startPos then [⟨s.prevSeq, s.startPos, s.lastPos⟩] else []

/-- The output of `calculateRegions` when the scanner yields lines that parse
to `recs`. -/
def regions (bpPerRegion : Int) (recs : List Record) : List Region :=
  let a := loop bpPerRegion State.init recs
  a.2 ++ flush a.1

/-- What a run of `calculateRegions` leaves behind: the regions printed, and
whether the run ended in a panic. -/
structure Outcome where
  printed : List Region
  panicked : Bool
deriving DecidableEq, Repr

/-- The scanner loop of `calculateRegions` over raw lines. -/
def lineLoop (bpPerRegion : Int) : State → List Bytes → Outcome
  | s, [] => ⟨flush s, false⟩
  | s, b :: bs =>
    match parseLine b with
    | none => ⟨[], true⟩
    | some r =>
      let a := step bpPerRegion s r
      let t := lineLoop bpPerRegion a.1 bs
      ⟨a.2 ++ t.printed, t.panicked⟩

/-- `calculateRegions` on the lines of the input and the budget. -/
def calculateRegions (bpPerRegion : Int) (lines : List Bytes) : Outcome :=
  lineLoop bpPerRegion State.init lines

/-! ## Concrete data used by the examples -/

/-- The bytes of "chr1". -/
def chr1 : Bytes := [99, 104, 114, 49]

/-- The bytes of "chr2". -/
def chr2 : Bytes := [99, 104, 114, 50]

/-! ## Well-formedness of the input -/

/-- Every record has a non-empty sequence name. -/
def NamesNonEmpty (recs : List Record) : Prop :=
  ∀ r ∈ recs, r.seq ≠ []

instance (recs : List Record) : Decidable (NamesNonEmpty recs) :=
  inferInstanceAs (Decidable (∀ r ∈ recs, _))

/-- Each name occurs in one contiguous run: once the name changes, the old
name never occurs again. -/
def ContigNames : List Bytes → Prop
  | [] => True
  | a :: l => (∀ b ∈ l.head?, a ≠ b → a ∉ l) ∧ ContigNames l

instance decContigNames : (l : List Bytes) → Decidable (ContigNames l)
  | [] => isTrue trivial
  | a :: l =>
    have := decContigNames l
    (inferInstance : Decidable ((∀ b ∈ l.head?, a ≠ b → a ∉ l) ∧ ContigNames l))

/-- Each sequence name of the input occurs in one contiguous run. -/
def Contiguous (recs : List Record) : Prop :=
  ContigNames (recs.map Record.seq)

instance (recs : List Record) : Decidable (Contiguous recs) :=
  decContigNames _

/-- Positions are strictly increasing within each run: a record followed by a
record of the same sequence has the smaller position. -/
def StrictlyIncreasing : List Record → Prop
  | [] => True
  | a :: l => (∀ b ∈ l.head?, a.seq = b.seq → a.pos < b.pos) ∧ StrictlyIncreasing l

instance decStrictlyIncreasing : (l : List Record) → Decidable (StrictlyIncreasing l)
  | [] => isTrue trivial
  | a :: l =>
    have := decStrictlyIncreasing l
    (inferInstance :
      Decidable ((∀ b ∈ l.head?, a.seq = b.seq → a.pos < b.pos) ∧ StrictlyIncreasing l))

/-- Every position is an `int64` whose successor is an `int64` too, so that
`startPos = pos + 1` does not wrap around. -/
def PosFit (recs : List Record) : Prop :=
  ∀ r ∈ recs, -9223372036854775808 ≤ r.pos + 1 ∧ r.pos + 1 < 9223372036854775808

instance (recs : List Record) : Decidable (PosFit recs) :=
  inferInstanceAs (Decidable (∀ r ∈ recs, _))

/-! ## Depth accounting -/

/-- The point `(n, p)` lies inside the region: same sequence and
`start ≤ p ≤ stop`. -/
def Region.covers (g : Region) (n : Bytes) (p : Int) : Prop :=
  n = g.seq ∧ g.start ≤ p ∧ p ≤ g.stop

instance (g : Region) (n : Bytes) (p : Int) : Decidable (g.covers n p) :=
  inferInstanceAs (Decidable (_ ∧ _))

/-- The summed depth of the input records lying inside a region. -/
def depthIn (recs : List Record) (g : Region) : Int :=
  ((recs.filter (fun r => decide (g.covers r.seq r.pos))).map Record.depth).sum

/-- The total depth of the input. -/
def totalDepth (recs : List Record) : Int :=
  (recs.map Record.depth).sum

/-- The depth of the last record of the input, `0` for the empty input. -/
def lastDepth (recs : List Record) : Int :=
  match recs.getLast? with
  | none => 0
  | some r => r.depth

/-- The number of regions of `out` in which the point `(n, p)` lies. -/
def cover (out : List Region) (n : Bytes) (p : Int) : Nat :=
  out.countP (fun g => decide (g.covers n p))

/-- The state of `calculateRegions` when the scanner loop ends. -/
def finalState (bpPerRegion : Int) (recs : List Record) : State :=
  (loop bpPerRegion State.init recs).1

/-- Two records on "chr1" and one on "chr2". -/
def sampleC1 : List Record := [⟨chr1, 1, 2⟩, ⟨chr1, 2, 2⟩, ⟨chr2, 7, 3⟩]

/-! ## Auxiliary notions used in the proofs -/

/-- The value of `startPos` after the sequence-change block. -/
def startBefore (s : State) (r : Record) : Int :=
  if s.prevSeq ≠ r.seq then r.pos else s.startPos

/-- The value of `bpInRegion` after the sequence-change block. -/
def bpBefore (s : State) (r : Record) : Int :=
  if s.prevSeq ≠ r.seq ∧ s.prevSeq ≠ [] then 0 else s.bpInRegion

/-- The overrun test `bpInRegion > bpPerRegion` succeeds on this record. -/
def Overruns (bp : Int) (s : State) (r : Record) : Prop :=
  wrap64 (bpBefore s r + r.depth) > bp

instance (bp : Int) (s : State) (r : Record) : Decidable (Overruns bp s r) :=
  inferInstanceAs (Decidable (_ > _))

/-- The invariant linking the state to the records still to come. -/
structure Inv (s : State) (ys : List Record) : Prop where
  names : NamesNonEmpty ys
  contig : ContigNames (s.prevSeq :: ys.map Record.seq)
  incr : StrictlyIncreasing (⟨s.prevSeq, s.lastPos, 0⟩ :: ys)
  fit : PosFit ys
  start_le : s.startPos ≤ s.lastPos + 1

/-- Is the point in the region that is open in state `s`? -/
def isOpen (s : State) (n : Bytes) (p : Int) : Nat :=
  if n = s.prevSeq ∧ s.startPos ≤ p ∧ p ≤ s.lastPos then 1 else 0

/-- A point that lies behind the scanner: on the current sequence at or before
the last position, or on a sequence that does not come again. -/
def Seen (s : State) (ys : List Record) (n : Bytes) (p : Int) : Prop :=
  n ≠ [] ∧ ((n = s.prevSeq ∧ p ≤ s.lastPos) ∨ (n ≠ s.prevSeq ∧ n ∉ ys.map Record.seq))

/-- The summed depth, over all emitted regions, of the input records lying
inside the region. -/
def coveredDepth (bpPerRegion : Int) (recs : List Record) : Int :=
  ((regions bpPerRegion recs).map (depthIn recs)).sum

/-! ## The records behind `bpInRegion` -/

/-- The depths are non-negative and their total is an `int64`, so that no
accumulation of depths wraps around. -/
def DepthsFit (recs : List Record) : Prop :=
  (∀ r ∈ recs, 0 ≤ r.depth) ∧ totalDepth recs < 9223372036854775808

instance (recs : List Record) : Decidable (DepthsFit recs) :=
  inferInstanceAs (Decidable ((∀ r ∈ recs, _) ∧ _))

/-- Ghost variable beside `bpInRegion`: the records whose depth `bpInRegion`
holds.  It is emptied where the source sets `bpInRegion = 0` (lines 253 and 261)
and extended where the source adds `int64(depth)` (line 257).  Given are the
state and the ghost before the iteration on `r`; the result is the ghost at
line 257, right after the addition. -/
def accAdd (s : State) (acc : List Record) (r : Record) : List Record :=
  (if s.prevSeq ≠ r.seq ∧ s.prevSeq ≠ [] then [] else acc) ++ [r]

/-- The ghost after the iteration on `r`. -/
def accStep (bpPerRegion : Int) (s : State) (acc : List Record) (r : Record) : List Record :=
  if (overrun bpPerRegion (seqChange s r).1 r).2 ≠ [] then [] else accAdd s acc r

/-- The ghost carried through the scanner loop. -/
def accLoop (bpPerRegion : Int) : State → List Record → List Record → List Record
  | _, acc, [] => acc
  | s, acc, r :: rs => accLoop bpPerRegion (step bpPerRegion s r).1 (accStep bpPerRegion s acc r) rs

/-- The records accumulated in the open region after the scanner loop has
consumed `pre`. -/
def openRecords (bpPerRegion : Int) (pre : List Record) : List Record :=
  accLoop bpPerRegion State.init [] pre

/-- The records accumulated in the region at line 257 of the iteration on `r`
that follows the records `pre`. -/
def regionRecords (bpPerRegion : Int) (pre : List Record) (r : Record) : List Record :=
  accAdd (loop bpPerRegion State.init pre).1 (openRecords bpPerRegion pre) r

/-- Three records of depth 2 on "chr1". -/
def sampleC2 : List Record := [⟨chr1, 1, 2⟩, ⟨chr1, 2, 2⟩, ⟨chr1, 3, 2⟩]

/-- The invariant linking `bpInRegion` to its ghost and to the records still to
come. -/
structure AccInv (bp : Int) (s : State) (acc rest : List Record) : Prop where
  sum_eq : s.bpInRegion = totalDepth acc
  prefix_le : ∀ p, p <+: acc → p ≠ [] → totalDepth p ≤ bp
  nonneg : 0 ≤ s.bpInRegion
  room : s.bpInRegion + totalDepth rest < 9223372036854775808
  depth_nonneg : ∀ x ∈ rest, 0 ≤ x.depth

/-! ## Inputs made of runs -/

/-- The lines "chr1 TAB 1 TAB 10" and "chr2 TAB 1 TAB 1". -/
def sampleC3 : List Bytes := [chr1 ++ [9, 49, 9, 49, 48], chr2 ++ [9, 49, 9, 49]]

/-- A run of the input: the records of one sequence, as pairs of position and
depth. -/
structure SeqRun where
  name : Bytes
  items : List (Int × Int)
deriving DecidableEq, Repr

/-- The records of a run. -/
def SeqRun.records (u : SeqRun) : List Record :=
  u.items.map (fun it => ⟨u.name, it.1, it.2⟩)

/-- The input made of the given runs, in order. -/
def recordsOfRuns (runs : List SeqRun) : List Record :=
  runs.flatMap SeqRun.records

/-- The first position of a run (`0` for a run without records). -/
def SeqRun.firstPos (u : SeqRun) : Int :=
  match u.items.head? with
  | none => 0
  | some it => it.1

/-- The last position of a run (`0` for a run without records). -/
def SeqRun.lastPos (u : SeqRun) : Int :=
  match u.items.getLast? with
  | none => 0
  | some it => it.1

/-- The region `(run name, first position, last position)`. -/
def SeqRun.region (u : SeqRun) : Region :=
  ⟨u.name, u.firstPos, u.lastPos⟩

/-- The summed depth of a run. -/
def SeqRun.depth (u : SeqRun) : Int :=
  (u.items.map Prod.snd).sum

/-- A run with a non-empty name, at least two records, strictly increasing
positions, non-negative depths and a total depth within the budget. -/
def SeqRun.UnderBudget (bp : Int) (u : SeqRun) : Prop :=
  u.name ≠ [] ∧ 2 ≤ u.items.length ∧ (u.items.map Prod.fst).Pairwise (· < ·)
    ∧ (∀ it ∈ u.items, 0 ≤ it.2) ∧ u.depth ≤ bp

instance (bp : Int) (u : SeqRun) : Decidable (u.UnderBudget bp) :=
  inferInstanceAs (Decidable (_ ∧ _ ∧ _ ∧ (∀ it ∈ u.items, _) ∧ _))

/-- The runs "chr1" and "chr2", positions 1 to 5, depth 1 each. -/
def sampleC4 : List SeqRun :=
  [⟨chr1, [(1, 1), (2, 1), (3, 1), (4, 1), (5, 1)]⟩,
   ⟨chr2, [(1, 1), (2, 1), (3, 1), (4, 1), (5, 1)]⟩]

/-! ## Single-sequence inputs -/

/-- All records of the input carry one and the same sequence name. -/
def SingleSequence (recs : List Record) : Prop :=
  ∀ a ∈ recs, ∀ b ∈ recs, a.seq = b.seq

instance (recs : List Record) : Decidable (SingleSequence recs) :=
  inferInstanceAs (Decidable (∀ a ∈ recs, ∀ b ∈ recs, _))

/-- The line "TAB 1 TAB 1": an empty sequence name, position 1, depth 1. -/
def sampleC6 : List Bytes := [[9, 49, 9, 49]]

/-- The line "chr1 TAB 1 TAB 1". -/
def sampleC8 : List Bytes := [chr1 ++ [9, 49, 9, 49]]

/-- The number of distinct sequence names of the input. -/
def coveredSequences (recs : List Record) : Nat :=
  (recs.map Record.seq).dedup.length

/-! ## Consecutive regions -/

/-- Two consecutively emitted regions adjoin: if they carry the same sequence
name, the second starts right after the end of the first. -/
def Adjoins (g h : Region) : Prop :=
  g.seq = h.seq → h.start = g.stop + 1

instance (g h : Region) : Decidable (Adjoins g h) :=
  inferInstanceAs (Decidable (_ → _))

/-- The link between the region printed last and the state: on the current
sequence the open region starts right after it; on another sequence, that
sequence does not come again. -/
def Link (g : Region) (s : State) (ys : List Record) : Prop :=
  (g.seq = s.prevSeq → s.startPos = g.stop + 1)
    ∧ (g.seq ≠ s.prevSeq → g.seq ∉ ys.map Record.seq)

/-- Four records of depth 2 on "chr1". -/
def sampleC7 : List Record := [⟨chr1, 1, 2⟩, ⟨chr1, 2, 2⟩, ⟨chr1, 3, 2⟩, ⟨chr1, 4, 2⟩]

/-! ## Well-formed lines of the depth file -/

/-- The bytes are decimal digits. -/
def IsDigits (ds : Bytes) : Prop :=
  ∀ c ∈ ds, 48 ≤ c ∧ c ≤ 57

instance (ds : Bytes) : Decidable (IsDigits ds) :=
  inferInstanceAs (Decidable (∀ c ∈ ds, _))

/-- The number a string of decimal digits denotes, most significant digit
first. -/
def decimalValue (ds : Bytes) : Nat :=
  Nat.ofDigits 10 (ds.reverse.map (fun c => c - 48))

/-- The three fields of a line of the depth file. -/
structure DepthRow where
  name : Bytes
  posField : Bytes
  depthField : Bytes
deriving DecidableEq, Repr

/-- The line `name TAB position TAB depth`. -/
def DepthRow.line (row : DepthRow) : Bytes :=
  row.name ++ tab :: (row.posField ++ tab :: row.depthField)

/-- The name and the position field hold no tab, and the depth field is a
string of decimal digits. -/
def DepthRow.WellFormed (row : DepthRow) : Prop :=
  tab ∉ row.name ∧ tab ∉ row.posField ∧ IsDigits row.depthField

instance (row : DepthRow) : Decidable row.WellFormed :=
  inferInstanceAs (Decidable (_ ∧ _ ∧ _))

/-- The sum of the numbers in the third fields. -/
def depthSum (rows : List DepthRow) : Nat :=
  (rows.map (fun row => decimalValue row.depthField)).sum

/-- The lines "chr1 TAB 1 TAB 12" and "chr1 TAB 2 TAB 30". -/
def sampleC10 : List DepthRow :=
  [⟨chr1, [49], [49, 50]⟩, ⟨chr1, [50], [51, 48]⟩]

/-! ## Formatting a line -/

/-- The decimal digits of a natural number, most significant digit first, as
written by a `%d` format. -/
def decimal (n : Nat) : Bytes :=
  if n = 0 then [48] else (Nat.digits 10 n).reverse.map (fun d => d + 48)

/-- The line `name TAB decimal(pos) TAB decimal(depth)`. -/
def formatLine (name : Bytes) (pos depth : Nat) : Bytes :=
  name ++ tab :: (decimal pos ++ tab :: decimal depth)

/-! ## main -/

/-- What `flag.Parse` leaves behind: the `-h` flag, the values of `-r` and
`-b`, and the positional arguments `flag.Args()`. -/
structure Config where
  help : Bool
  numRegions : Int
  bpPerRegion : Int
  args : List Bytes
deriving DecidableEq, Repr

/-- What a run of the program leaves behind: the exit status, the regions
printed, and the depth sources it tried to read, in order (the path of each
`os.Open`, the path "-" for standard input). -/
structure Trace where
  exitCode : Nat
  printed : List Region
  opened : List Bytes
deriving DecidableEq, Repr

/-- The path "-". -/
def dash : Bytes := [45]

/-- `exitHelp(msg)`: the help text goes to the terminal, and the process exits
with status 0 when `msg` is empty and 1 otherwise (lines 91-128).  The flag
says whether `msg` is non-empty. -/
def exitHelp (withMsg : Bool) : Trace :=
  ⟨if withMsg then 1 else 0, [], []⟩

/-- The end of a run of `calculateRegions` inside `main`: status 0 after a
normal return, status 2 after a panic. -/
def afterRegions (opened : List Bytes) (o : Outcome) : Trace :=
  ⟨if o.panicked then 2 else 0, o.printed, opened⟩

/-- `calculateRegions(path, bpPerRegion)` with its input selection (lines
203-218): standard input for the path "-", the file otherwise, `die` when the
file does not open. -/
def runRegions (fs : Bytes → Option (List Bytes)) (stdin : List Bytes)
    (opened : List Bytes) (path : Bytes) (bpPerRegion : Int) : Trace :=
  if path = dash then
    afterRegions (opened ++ [path]) (calculateRegions bpPerRegion stdin)
  else
    match fs path with
    | none => ⟨1, [], opened ++ [path]⟩
    | some lines => afterRegions (opened ++ [path]) (calculateRegions bpPerRegion lines)

/-- The function `main` (lines 42-87) after `flag.Parse`.  The file system maps
a path to the lines of the file, or to `none` when it does not open; `derive`
stands for the `float64` computation `int64(math.Ceil(float64(totalCoverage) /
float64(numRegions)))` of line 81. -/
def main (derive : Int → Int → Int) (fs : Bytes → Option (List Bytes))
    (stdin : List Bytes) (c : Config) : Trace :=
  if c.help then exitHelp false
  else if c.args.length ≠ 1 then exitHelp true
  else if c.numRegions = 0 ∧ c.bpPerRegion = 0 then exitHelp true
  else if c.numRegions ≠ 0 ∧ c.bpPerRegion ≠ 0 then exitHelp true
  else if c.numRegions < 0 ∨ c.bpPerRegion < 0 then exitHelp true
  else
    let depthPath := c.args.headD []
    if c.bpPerRegion = 0 then
      if depthPath = dash then exitHelp true
      else
        match fs depthPath with
        | none => ⟨1, [], [depthPath]⟩
        | some lines =>
          match sumColumnThree lines with
          | none => ⟨2, [], [depthPath]⟩
          | some totalCoverage =>
            runRegions fs stdin [depthPath] depthPath (derive totalCoverage c.numRegions)
    else runRegions fs stdin [] depthPath c.bpPerRegion

/-- The configurations that `main` accepts: no `-h`, exactly one positional
argument, exactly one of `-r` and `-b` non-zero, neither negative, and a source
other than "-" when the region count is used. -/
def Config.Valid (c : Config) : Prop :=
  c.help = false ∧ c.args.length = 1
    ∧ ((c.numRegions ≠ 0 ∧ c.bpPerRegion = 0) ∨ (c.numRegions = 0 ∧ c.bpPerRegion ≠ 0))
    ∧ 0 ≤ c.numRegions ∧ 0 ≤ c.bpPerRegion
    ∧ (c.numRegions ≠ 0 → c.args.headD [] ≠ dash)

instance (c : Config) : Decidable c.Valid :=
  inferInstanceAs (Decidable (_ ∧ _ ∧ _ ∧ _ ∧ _ ∧ _))

/-- The ceiling division `⌈t / n⌉` of integers. -/
def ceilDiv (t n : Int) : Int := (t + n - 1) / n

/-! ## Data for the later examples -/

/-- The lines "TAB 5 TAB 1" and "chr1 TAB 1 TAB 1". -/
def sampleC13 : List Bytes := [[9, 53, 9, 49], chr1 ++ [9, 49, 9, 49]]

/-- The sum that the additions `sum += int64(depth)` produce over the parsed
lines. -/
def wrapSum (recs : List Record) : Int :=
  recs.foldl (fun acc r => wrap64 (acc + r.depth)) 0

/-! ## Counting runs and regions -/

/-- The number of runs of a list of names: the maximal blocks of equal
neighbours. -/
def runCount : List Bytes → Nat
  | [] => 0
  | a :: l => (if l.head? = some a then 0 else 1) + runCount l

/-- The number of regions the sequence-change block prints when the scanner,
with `prevSeq = p`, reads records with the given names. -/
def closings : Bytes → List Bytes → Nat
  | _, [] => 0
  | p, a :: l => (if p ≠ a ∧ p ≠ [] then 1 else 0) + closings a l

/-- Seven records of depth 3 on "chr1" and "chr2". -/
def sampleC16 : List Record :=
  [⟨chr1, 1, 3⟩, ⟨chr1, 2, 3⟩, ⟨chr1, 3, 3⟩, ⟨chr1, 4, 3⟩, ⟨chr2, 1, 3⟩, ⟨chr2, 2, 3⟩,
   ⟨chr2, 3, 3⟩]

/-! ## The uniform stream -/

/-- The records of one sequence at the positions `1 .. N`, each of depth 1. -/
def uniform (name : Bytes) (N : Nat) : List Record :=
  (List.range N).map (fun i : Nat => ⟨name, (i : Int) + 1, 1⟩)

/-- The region `[k (B + 1) + 1, (k + 1) (B + 1)]`. -/
def fullRegion (name : Bytes) (B k : Nat) : Region :=
  ⟨name, (k : Int) * ((B : Int) + 1) + 1, ((k : Int) + 1) * ((B : Int) + 1)⟩

/-- The regions `[k (B + 1) + 1, (k + 1) (B + 1)]` for `k < ⌊N / (B + 1)⌋`,
followed by the region `[⌊N / (B + 1)⌋ (B + 1) + 1, N]` if `N mod (B + 1) ≥ 2`. -/
def uniformRegions (name : Bytes) (B N : Nat) : List Region :=
  (List.range (N / (B + 1))).map (fullRegion name B)
    ++ (if 2 ≤ N % (B + 1)
        then [⟨name, ((N / (B + 1) : Nat) : Int) * ((B : Int) + 1) + 1, (N : Int)⟩] else [])

/-- The state in which the scanner, on the sequence `name`, has an open region
starting at position 1 and has read nothing yet. -/
def uniformStart (name : Bytes) : State := ⟨name, 1, 0, 0⟩

/-! ## Non-decreasing positions -/

/-- Positions are non-decreasing within each run: a record followed by a
record of the same sequence does not have the larger position. -/
def NonDecreasing : List Record → Prop
  | [] => True
  | a :: l => (∀ b ∈ l.head?, a.seq = b.seq → a.pos ≤ b.pos) ∧ NonDecreasing l

instance decNonDecreasing : (l : List Record) → Decidable (NonDecreasing l)
  | [] => isTrue trivial
  | a :: l =>
    have := decNonDecreasing l
    (inferInstance :
      Decidable ((∀ b ∈ l.head?, a.seq = b.seq → a.pos ≤ b.pos) ∧ NonDecreasing l))

/-- The invariant of the scanner loop under non-decreasing positions. -/
structure Inv2 (s : State) (ys : List Record) : Prop where
  mono : NonDecreasing (⟨s.prevSeq, s.lastPos, 0⟩ :: ys)
  fit : PosFit ys
  start_le : s.startPos ≤ s.lastPos + 1

/-- Two records of depth 10 on "chr1", both at position 5. -/
def sampleC18 : List Record := [⟨chr1, 5, 10⟩, ⟨chr1, 5, 10⟩]

/-- Records on "chr1" at positions 1 and 2 and on "chr2" at position 1. -/
def sampleC18b : List Record := [⟨chr1, 1, 10⟩, ⟨chr1, 2, 10⟩, ⟨chr2, 1, 1⟩]

/-! ## The float64 arithmetic of line 81

A finite `float64` is embedded as the rational number it denotes.  Rounding is
to the nearest number with a 53-bit significand, ties to the even significand,
as IEEE 754 binary64 arithmetic does it.  The exponent is not bounded: the
operands of line 81 are integers of at most 64 bits and their quotient is zero
or at least `2^-63`, far inside the range of normal numbers.  The divisor
`numRegions` is not zero when line 81 is reached. -/

/-- Rounding of a rational number to the nearest integer, ties to the even
one. -/
def roundHalfEven (x : ℚ) : Int :=
  if x - ⌊x⌋ < 1 / 2 then ⌊x⌋
  else if 1 / 2 < x - ⌊x⌋ then ⌊x⌋ + 1
  else if ⌊x⌋ % 2 = 0 then ⌊x⌋ else ⌊x⌋ + 1

/-- The spacing of the `float64` numbers around `q > 0`:
`2 ^ (⌊log₂ q⌋ - 52)`. -/
def ulp (q : ℚ) : ℚ :=
  (2 : ℚ) ^ (Int.log 2 q - 52)

/-- Rounding of a rational number to the nearest `float64`. -/
def roundF64 (q : ℚ) : ℚ :=
  if q = 0 then 0
  else if 0 < q then (roundHalfEven (q / ulp q) : ℚ) * ulp q
  else -((roundHalfEven (-q / ulp (-q)) : ℚ) * ulp (-q))

/-- The conversion `float64(x)` of an `int64`. -/
def toFloat64 (x : Int) : ℚ :=
  roundF64 (x : ℚ)

/-- The `float64` division `a / b`. -/
def floatDiv (a b : ℚ) : ℚ :=
  roundF64 (a / b)

/-- The function `math.Ceil` on a finite `float64`. -/
def floatCeil (a : ℚ) : ℚ :=
  (⌈a⌉ : ℚ)

/-- The conversion `int64(f)` of a finite `float64`: the fraction is dropped;
a value outside the `int64` range gives `-2^63`, as on amd64. -/
def toInt64 (f : ℚ) : Int :=
  if -9223372036854775808 ≤ f ∧ f < 9223372036854775808 then
    (if 0 ≤ f then ⌊f⌋ else ⌈f⌉)
  else -9223372036854775808

/-- The expression `int64(math.Ceil(float64(totalCoverage) /
float64(numRegions)))` of line 81. -/
def deriveBudget (totalCoverage numRegions : Int) : Int :=
  toInt64 (floatCeil (floatDiv (toFloat64 totalCoverage) (toFloat64 numRegions)))

/-- The file named "chr1" holds the four lines "chr1 TAB i TAB 250",
`i = 1 .. 4`: a total depth of 1000. -/
def sampleC9 : List Bytes :=
  [chr1 ++ [9, 49, 9, 50, 53, 48], chr1 ++ [9, 50, 9, 50, 53, 48],
   chr1 ++ [9, 51, 9, 50, 53, 48], chr1 ++ [9, 52, 9, 50, 53, 48]]

/-- The line "chr1 TAB 1 TAB 9007199254740993", of depth `2^53 + 1`. -/
def sampleC9big : List Bytes :=
  [chr1 ++ [9, 49, 9, 57, 48, 48, 55, 49, 57, 57, 50, 53, 52, 55, 52, 48, 57, 57, 51]]

/-! ## Basic facts about the scanner loop -/

theorem wrap64_eq {x : Int} (h1 : -9223372036854775808 ≤ x) (h2 : x < 9223372036854775808) :
    wrap64 x = x := by
  unfold wrap64; omega

theorem State.ext_fields {s t : State} (h1 : s.prevSeq = t.prevSeq)
    (h2 : s.startPos = t.startPos) (h3 : s.lastPos = t.lastPos)
    (h4 : s.bpInRegion = t.bpInRegion) : s = t := by
  cases s; cases t; simp_all

theorem step_prevSeq (bp : Int) (s : State) (r : Record) :
    (step bp s r).1.prevSeq = r.seq := by
  simp only [step, seqChange, overrun]
  split_ifs <;> simp_all

theorem step_lastPos (bp : Int) (s : State) (r : Record) :
    (step bp s r).1.lastPos = r.pos := by
  simp [step]

theorem step_startPos (bp : Int) (s : State) (r : Record) :
    (step bp s r).1.startPos =
      if Overruns bp s r then wrap64 (r.pos + 1) else startBefore s r := by
  simp only [step, seqChange, overrun, Overruns, bpBefore, startBefore]
  split_ifs <;> simp_all

theorem step_bpInRegion (bp : Int) (s : State) (r : Record) :
    (step bp s r).1.bpInRegion =
      if Overruns bp s r then 0 else wrap64 (bpBefore s r + r.depth) := by
  simp only [step, seqChange, overrun, Overruns, bpBefore]
  split_ifs <;> simp_all

theorem step_out (bp : Int) (s : State) (r : Record) :
    (step bp s r).2 =
      (if s.prevSeq ≠ r.seq ∧ s.prevSeq ≠ [] then [⟨s.prevSeq, s.startPos, s.lastPos⟩] else [])
        ++ (if Overruns bp s r then [⟨r.seq, startBefore s r, r.pos⟩] else []) := by
  simp only [step, seqChange, overrun, Overruns, bpBefore, startBefore]
  split_ifs <;> simp_all

theorem loop_nil (bp : Int) (s : State) : loop bp s [] = (s, []) := rfl

theorem loop_cons (bp : Int) (s : State) (r : Record) (rs : List Record) :
    loop bp s (r :: rs) =
      ((loop bp (step bp s r).1 rs).1, (step bp s r).2 ++ (loop bp (step bp s r).1 rs).2) := rfl

theorem loop_append (bp : Int) (s : State) (xs ys : List Record) :
    loop bp s (xs ++ ys) =
      ((loop bp (loop bp s xs).1 ys).1, (loop bp s xs).2 ++ (loop bp (loop bp s xs).1 ys).2) := by
  induction xs generalizing s with
  | nil => simp [loop_nil]
  | cons x xs ih => simp [loop_cons, ih, List.append_assoc]

/-! ### The invariant of the scanner loop -/

theorem step_inv (bp : Int) {s : State} {r : Record} {rs : List Record}
    (h : Inv s (r :: rs)) : Inv (step bp s r).1 rs := by
  obtain ⟨hn, hc, hi, hf, hs⟩ := h
  have hr := hf r (List.mem_cons_self _ _)
  have hw : wrap64 (r.pos + 1) = r.pos + 1 := wrap64_eq hr.1 hr.2
  refine ⟨fun x hx => hn x (List.mem_cons_of_mem _ hx), ?_, ?_,
    fun x hx => hf x (List.mem_cons_of_mem _ hx), ?_⟩
  · rw [step_prevSeq]; exact hc.2
  · rw [step_prevSeq, step_lastPos]; exact hi.2
  · have h1 := hi.1 r (by simp)
    rw [step_startPos, step_lastPos, hw]
    unfold startBefore
    split_ifs with h2 h3
    · omega
    · omega
    · have := h1 (not_not.mp h3)
      simp only at this
      omega

theorem init_inv {recs : List Record} (hn : NamesNonEmpty recs) (hc : Contiguous recs)
    (hi : StrictlyIncreasing recs) (hf : PosFit recs) : Inv State.init recs := by
  refine ⟨hn, ⟨?_, hc⟩, ⟨?_, hi⟩, hf, by simp [State.init]⟩
  · intro b hb hne hmem
    simp only [State.init, List.mem_map] at hmem
    obtain ⟨x, hx, hxe⟩ := hmem
    exact hn x hx hxe
  · intro b hb hseq
    cases recs with
    | nil => simp at hb
    | cons x xs =>
      simp only [List.head?_cons, Option.mem_def, Option.some.injEq] at hb
      subst hb
      exact absurd hseq.symm (hn x (List.mem_cons_self _ _))

theorem later_gt : ∀ (l : List Record) (a : Record),
    ContigNames (a.seq :: l.map Record.seq) → StrictlyIncreasing (a :: l) →
    ∀ y ∈ l, y.seq = a.seq → a.pos < y.pos
  | [], _, _, _, y, hy, _ => by simp at hy
  | b :: l, a, hc, hi, y, hy, hya => by
    by_cases hab : a.seq = b.seq
    · have h1 : a.pos < b.pos := hi.1 b (by simp) hab
      rcases List.mem_cons.mp hy with rfl | hy
      · exact h1
      · have := later_gt l b hc.2 hi.2 y hy (hya.trans hab)
        omega
    · exfalso
      have := hc.1 b.seq (by simp) hab
      apply this
      rw [← hya]
      exact List.mem_map_of_mem _ hy

theorem cover_nil (n : Bytes) (p : Int) : cover [] n p = 0 := rfl

theorem cover_append (a b : List Region) (n : Bytes) (p : Int) :
    cover (a ++ b) n p = cover a n p + cover b n p := by
  simp [cover, List.countP_append]

theorem cover_single (g : Region) (n : Bytes) (p : Int) :
    cover [g] n p = if n = g.seq ∧ g.start ≤ p ∧ p ≤ g.stop then 1 else 0 := by
  simp [cover, List.countP_cons, Region.covers]

theorem cover_ite (c : Prop) [Decidable c] (g : Region) (n : Bytes) (p : Int) :
    cover (if c then [g] else []) n p
      = if c ∧ n = g.seq ∧ g.start ≤ p ∧ p ≤ g.stop then 1 else 0 := by
  split_ifs with h1 h2 h2
  · rw [cover_single, if_pos h2.2]
  · rw [cover_single, if_neg (fun h => h2 ⟨h1, h⟩)]
  · exact absurd h2.1 h1
  · rfl

theorem step_seen (bp : Int) {s : State} {r : Record} {rs : List Record}
    (h : Inv s (r :: rs)) {n : Bytes} {p : Int} (hs : Seen s (r :: rs) n p) :
    cover (step bp s r).2 n p + isOpen (step bp s r).1 n p = isOpen s n p
      ∧ Seen (step bp s r).1 rs n p := by
  obtain ⟨hn, hc, hi, hf, hsl⟩ := h
  have hr := hf r (List.mem_cons_self _ _)
  have hw : wrap64 (r.pos + 1) = r.pos + 1 := wrap64_eq hr.1 hr.2
  have h1 : s.prevSeq = r.seq → s.lastPos < r.pos := hi.1 r (by simp)
  have h2 : s.prevSeq ≠ r.seq → s.prevSeq ∉ (r :: rs).map Record.seq := hc.1 r.seq (by simp)
  obtain ⟨hne, hs⟩ := hs
  constructor
  · rw [step_out, cover_append, cover_ite, cover_ite]
    unfold isOpen
    rw [step_prevSeq, step_startPos, step_lastPos, hw]
    unfold startBefore
    rcases hs with ⟨hnp, hpl⟩ | ⟨hnp, hnm⟩
    · subst hnp
      by_cases hc1 : s.prevSeq = r.seq
      · have := h1 hc1
        simp only [hc1, ne_eq, not_true_eq_false, false_and, if_false, true_and, zero_add,
          if_true]
        rw [← hc1] at *
        by_cases ho : Overruns bp s r <;>
          simp only [ho, if_true, if_false, true_and, false_and] <;>
          split_ifs <;> omega
      · have hc2 : ¬ (r.seq = s.prevSeq) := fun h => hc1 h.symm
        simp only [hc1, hc2, ne_eq, not_false_eq_true, true_and, hne, false_and, if_false,
          and_true, add_zero, and_false]
    · have hnr : n ≠ r.seq := fun h => hnm (by simp [h])
      simp [hnp, hnr]
  · refine ⟨hne, ?_⟩
    rw [step_prevSeq, step_lastPos]
    rcases hs with ⟨hnp, hpl⟩ | ⟨hnp, hnm⟩
    · by_cases hc1 : s.prevSeq = r.seq
      · left; exact ⟨hnp.trans hc1, by have := h1 hc1; omega⟩
      · right
        have := h2 hc1
        simp only [List.map_cons, List.mem_cons, not_or] at this
        exact ⟨hnp ▸ this.1, hnp ▸ this.2⟩
    · right
      simp only [List.map_cons, List.mem_cons, not_or] at hnm
      exact hnm

theorem step_self (bp : Int) {s : State} {r : Record} {rs : List Record}
    (h : Inv s (r :: rs)) :
    cover (step bp s r).2 r.seq r.pos + isOpen (step bp s r).1 r.seq r.pos = 1
      ∧ Seen (step bp s r).1 rs r.seq r.pos := by
  obtain ⟨hn, hc, hi, hf, hsl⟩ := h
  have hr := hf r (List.mem_cons_self _ _)
  have hw : wrap64 (r.pos + 1) = r.pos + 1 := wrap64_eq hr.1 hr.2
  have h1 : s.prevSeq = r.seq → s.lastPos < r.pos := hi.1 r (by simp)
  have hne : r.seq ≠ [] := hn r (List.mem_cons_self _ _)
  constructor
  · rw [step_out, cover_append, cover_ite, cover_ite]
    unfold isOpen
    rw [step_prevSeq, step_startPos, step_lastPos, hw]
    unfold startBefore
    by_cases hc1 : s.prevSeq = r.seq
    · have := h1 hc1
      by_cases ho : Overruns bp s r <;>
        simp only [hc1, ho, ne_eq, not_true_eq_false, false_and, if_false, true_and, zero_add,
          if_true, le_refl, and_true] <;>
        split_ifs <;> omega
    · have hc2 : ¬ (r.seq = s.prevSeq) := fun h => hc1 h.symm
      by_cases ho : Overruns bp s r
      · simp only [hc1, hc2, ho, ne_eq, not_false_eq_true, true_and, false_and, if_false,
          and_true, add_zero, and_false, zero_add, if_true, le_refl]
        rw [if_neg (by omega)]
      · simp only [hc1, hc2, ho, ne_eq, not_false_eq_true, true_and, false_and, if_false,
          and_true, add_zero, and_false, zero_add, if_true, le_refl]
  · exact ⟨hne, Or.inl ⟨(step_prevSeq _ _ _).symm, by rw [step_lastPos]⟩⟩

theorem step_future (bp : Int) {s : State} {r : Record} {rs : List Record}
    (h : Inv s (r :: rs)) {y : Record} (hy : y ∈ rs) :
    cover (step bp s r).2 y.seq y.pos = 0 := by
  obtain ⟨hn, hc, hi, hf, hsl⟩ := h
  have h2 : s.prevSeq ≠ r.seq → s.prevSeq ∉ (r :: rs).map Record.seq := hc.1 r.seq (by simp)
  have h3 : y.seq = r.seq → r.pos < y.pos := later_gt rs r hc.2 hi.2 y hy
  rw [step_out, cover_append, cover_ite, cover_ite]
  have e1 : ¬ ((s.prevSeq ≠ r.seq ∧ s.prevSeq ≠ []) ∧
      y.seq = s.prevSeq ∧ s.startPos ≤ y.pos ∧ y.pos ≤ s.lastPos) := by
    rintro ⟨⟨ha, -⟩, hb, -⟩
    apply h2 ha
    rw [← hb]
    exact List.mem_cons_of_mem _ (List.mem_map_of_mem _ hy)
  have e2 : ¬ (Overruns bp s r ∧ y.seq = r.seq ∧ startBefore s r ≤ y.pos ∧ y.pos ≤ r.pos) := by
    rintro ⟨-, hb, -, hd⟩
    have := h3 hb
    omega
  simp only at e1 e2 ⊢
  rw [if_neg e1, if_neg e2]

theorem loop_seen (bp : Int) (ys : List Record) : ∀ {s : State}, Inv s ys →
    ∀ {n : Bytes} {p : Int}, Seen s ys n p →
    cover (loop bp s ys).2 n p + isOpen (loop bp s ys).1 n p = isOpen s n p := by
  induction ys with
  | nil => intro s _ n p _; simp [loop_nil, cover_nil]
  | cons r rs ih =>
    intro s h n p hs
    have h1 := step_seen bp h hs
    have h2 := ih (step_inv bp h) h1.2
    rw [loop_cons, cover_append]
    simp only
    omega

theorem loop_mem (bp : Int) (ys : List Record) : ∀ {s : State}, Inv s ys →
    ∀ {y : Record}, y ∈ ys →
    cover (loop bp s ys).2 y.seq y.pos + isOpen (loop bp s ys).1 y.seq y.pos = 1 := by
  induction ys with
  | nil => intro s _ y hy; simp at hy
  | cons r rs ih =>
    intro s h y hy
    rw [loop_cons, cover_append]
    simp only
    rcases List.mem_cons.mp hy with rfl | hy
    · have h1 := step_self bp h
      have h2 := loop_seen bp rs (step_inv bp h) h1.2
      omega
    · have h1 := step_future bp h hy
      have h2 := ih (step_inv bp h) hy
      omega

theorem cover_cons (g : Region) (out : List Region) (n : Bytes) (p : Int) :
    cover (g :: out) n p = cover out n p + (if g.covers n p then 1 else 0) := by
  simp [cover, List.countP_cons]

theorem depthIn_nil (g : Region) : depthIn [] g = 0 := rfl

theorem depthIn_cons (x : Record) (recs : List Record) (g : Region) :
    depthIn (x :: recs) g = (if g.covers x.seq x.pos then x.depth else 0) + depthIn recs g := by
  unfold depthIn
  by_cases h : g.covers x.seq x.pos <;> simp [List.filter_cons, h]

theorem sum_depthIn_nil (out : List Region) : (out.map (depthIn [])).sum = 0 := by
  induction out with
  | nil => rfl
  | cons g out ih => simp [depthIn_nil, ih]

theorem sum_depthIn_cons (out : List Region) (x : Record) (recs : List Record) :
    (out.map (depthIn (x :: recs))).sum
      = x.depth * (cover out x.seq x.pos : Int) + (out.map (depthIn recs)).sum := by
  induction out with
  | nil => simp [cover_nil]
  | cons g out ih =>
    simp only [List.map_cons, List.sum_cons, ih, depthIn_cons, cover_cons]
    split_ifs <;> push_cast <;> ring

/-- The covered depth as a sum over the records, each weighted by the number
of regions it lies in. -/
theorem sum_depthIn (out : List Region) (recs : List Record) :
    (out.map (depthIn recs)).sum
      = (recs.map (fun x => x.depth * (cover out x.seq x.pos : Int))).sum := by
  induction recs with
  | nil => simp [sum_depthIn_nil]
  | cons x recs ih => simp [sum_depthIn_cons, ih]

theorem contigNames_suffix (a b : List Bytes) (h : ContigNames (a ++ b)) : ContigNames b := by
  induction a with
  | nil => exact h
  | cons x a ih => exact ih h.2

theorem strictlyIncreasing_suffix (a b : List Record) (h : StrictlyIncreasing (a ++ b)) :
    StrictlyIncreasing b := by
  induction a with
  | nil => exact h
  | cons x a ih => exact ih h.2

/-- Under the well-formedness conditions no earlier record sits on the point of
the last record. -/
theorem before_last_lt {xs : List Record} {l : Record} (hc : Contiguous (xs ++ [l]))
    (hi : StrictlyIncreasing (xs ++ [l])) {x : Record} (hx : x ∈ xs) (hs : x.seq = l.seq) :
    x.pos < l.pos := by
  obtain ⟨pre, post, rfl⟩ := List.append_of_mem hx
  have hc2 : ContigNames (x.seq :: (post ++ [l]).map Record.seq) := by
    have := contigNames_suffix (pre.map Record.seq) _
      (by simpa [Contiguous, List.map_append] using hc)
    simpa using this
  have hi2 : StrictlyIncreasing (x :: (post ++ [l])) := by
    have := strictlyIncreasing_suffix pre _ (by simpa [List.append_assoc] using hi)
    simpa using this
  exact later_gt _ x hc2 hi2 l (by simp) hs.symm

theorem loop_snoc_state (bp : Int) (s : State) (xs : List Record) (l : Record) :
    (loop bp s (xs ++ [l])).1 = (step bp (loop bp s xs).1 l).1 := by
  rw [loop_append]
  simp [loop_cons, loop_nil]

theorem finalState_snoc_prevSeq (bp : Int) (xs : List Record) (l : Record) :
    (finalState bp (xs ++ [l])).prevSeq = l.seq := by
  unfold finalState; rw [loop_snoc_state, step_prevSeq]

theorem finalState_snoc_lastPos (bp : Int) (xs : List Record) (l : Record) :
    (finalState bp (xs ++ [l])).lastPos = l.pos := by
  unfold finalState; rw [loop_snoc_state, step_lastPos]

theorem cover_flush (s : State) (n : Bytes) (p : Int) :
    cover (flush s) n p = if s.lastPos > s.startPos then isOpen s n p else 0 := by
  unfold flush isOpen
  split_ifs with h1 h2
  · rw [cover_single, if_pos h2]
  · rw [cover_single, if_neg h2]
  · rfl

/-- The number of regions of the output in which an input record lies. -/
theorem cover_regions {bp : Int} {recs : List Record} (hn : NamesNonEmpty recs)
    (hc : Contiguous recs) (hi : StrictlyIncreasing recs) (hf : PosFit recs)
    {y : Record} (hy : y ∈ recs) :
    cover (regions bp recs) y.seq y.pos
      = if (finalState bp recs).lastPos = (finalState bp recs).startPos
          ∧ y.seq = (finalState bp recs).prevSeq ∧ y.pos = (finalState bp recs).lastPos
        then 0 else 1 := by
  have h := loop_mem bp recs (init_inv hn hc hi hf) hy
  unfold regions finalState
  simp only
  rw [cover_append, cover_flush]
  generalize (loop bp State.init recs).1 = f at *
  generalize cover (loop bp State.init recs).2 y.seq y.pos = c at *
  unfold isOpen at *
  by_cases hs : y.seq = f.prevSeq
  · simp only [hs, true_and] at h ⊢
    split_ifs at h ⊢ <;> omega
  · simp only [hs, false_and, and_false, if_false] at h ⊢
    split_ifs <;> omega

theorem lastDepth_snoc (xs : List Record) (l : Record) : lastDepth (xs ++ [l]) = l.depth := by
  simp [lastDepth]

theorem sum_map_sub_ite (recs : List Record) (P : Record → Prop) [DecidablePred P] :
    (recs.map (fun x => x.depth * (((if P x then 0 else 1 : Nat)) : Int))).sum
      = totalDepth recs - (recs.map (fun x => if P x then x.depth else 0)).sum := by
  unfold totalDepth
  induction recs with
  | nil => simp
  | cons x recs ih =>
    simp only [List.map_cons, List.sum_cons, ih]
    split_ifs <;> push_cast <;> ring

theorem depth_conservation_aux (bp : Int) (recs : List Record)
    (hn : NamesNonEmpty recs) (hc : Contiguous recs) (hi : StrictlyIncreasing recs)
    (hf : PosFit recs) :
    coveredDepth bp recs = totalDepth recs -
      (if (finalState bp recs).lastPos = (finalState bp recs).startPos
        then lastDepth recs else 0) := by
  unfold coveredDepth
  rw [sum_depthIn]
  have e1 : recs.map (fun x => x.depth * (cover (regions bp recs) x.seq x.pos : Int))
      = recs.map (fun x => x.depth * (((if (finalState bp recs).lastPos
          = (finalState bp recs).startPos ∧ x.seq = (finalState bp recs).prevSeq
            ∧ x.pos = (finalState bp recs).lastPos then 0 else 1 : Nat)) : Int)) := by
    apply List.map_congr_left
    intro x hx
    rw [cover_regions hn hc hi hf hx]
  rw [e1, sum_map_sub_ite]
  congr 1
  rcases List.eq_nil_or_concat recs with rfl | ⟨xs, l, rfl⟩
  · simp [lastDepth]
  · rw [List.concat_eq_append] at *
    rw [finalState_snoc_prevSeq, finalState_snoc_lastPos, lastDepth_snoc, List.map_append,
      List.sum_append]
    have z : (xs.map (fun x => if l.pos = (finalState bp (xs ++ [l])).startPos ∧
        x.seq = l.seq ∧ x.pos = l.pos then x.depth else 0)).sum = 0 := by
      apply List.sum_eq_zero
      intro v hv
      obtain ⟨x, hx, rfl⟩ := List.mem_map.mp hv
      have hlt : x.seq = l.seq → x.pos < l.pos := before_last_lt hc hi hx
      split_ifs with h
      · have := hlt h.2.1
        omega
      · rfl
    rw [z]
    simp

/-! ### From lines to records -/

theorem lineLoop_of_parsed (bp : Int) (lines : List Bytes) :
    ∀ (s : State) (recs : List Record), lines.map parseLine = recs.map some →
      lineLoop bp s lines = ⟨(loop bp s recs).2 ++ flush (loop bp s recs).1, false⟩ := by
  induction lines with
  | nil =>
    intro s recs h
    cases recs with
    | nil => simp [lineLoop, loop_nil]
    | cons r rs => simp at h
  | cons b bs ih =>
    intro s recs h
    cases recs with
    | nil => simp at h
    | cons r rs =>
      simp only [List.map_cons, List.cons.injEq] at h
      simp only [lineLoop, h.1, ih _ rs h.2, loop_cons, List.append_assoc]

/-- When every line parses, `calculateRegions` prints the regions computed from
the parsed records and does not panic. -/
theorem calculateRegions_of_parsed (bp : Int) (lines : List Bytes) (recs : List Record)
    (h : lines.map parseLine = recs.map some) :
    calculateRegions bp lines = ⟨regions bp recs, false⟩ :=
  lineLoop_of_parsed bp lines State.init recs h

/-! ## C1: depth conservation -/

/-- C1. Depth conservation of `calculateRegions`: when the names are non-empty,
each name occurs in one contiguous run, positions are strictly increasing
within a run (and no position is the largest `int64`), the depths of the input
records summed region by region over the emitted regions equal the total depth
of the input, except when the stream ends with `lastPos == startPos`, where
the sum is short by exactly the depth of the last record; and no record lies
in two emitted regions. -/
theorem depth_conservation (bp : Int) (recs : List Record)
    (hn : NamesNonEmpty recs) (hc : Contiguous recs) (hi : StrictlyIncreasing recs)
    (hf : PosFit recs) :
    coveredDepth bp recs = totalDepth recs -
        (if (finalState bp recs).lastPos = (finalState bp recs).startPos
          then lastDepth recs else 0)
      ∧ ∀ r ∈ recs, cover (regions bp recs) r.seq r.pos ≤ 1 := by
  refine ⟨depth_conservation_aux bp recs hn hc hi hf, ?_⟩
  intro r hr
  rw [cover_regions hn hc hi hf hr]
  split_ifs <;> omega

/-- Three records on two sequences under a budget of 2: the regions
`chr1:1-2` and `chr2:7-7` are emitted and cover the whole depth. -/
theorem depth_conservation_witness :
    (NamesNonEmpty sampleC1
      ∧ Contiguous sampleC1
      ∧ StrictlyIncreasing sampleC1
      ∧ PosFit sampleC1)
    ∧ (coveredDepth 2 sampleC1
        = totalDepth sampleC1 -
          (if (finalState 2 sampleC1).lastPos
              = (finalState 2 sampleC1).startPos
            then lastDepth sampleC1 else 0)
      ∧ ∀ r ∈ sampleC1,
          cover (regions 2 sampleC1) r.seq r.pos ≤ 1) :=
  ⟨⟨by decide, by decide, by decide, by decide⟩,
    depth_conservation 2 sampleC1 (by decide) (by decide) (by decide) (by decide)⟩

/-! ## C2: overshoot bound -/

theorem totalDepth_nil : totalDepth [] = 0 := rfl

theorem totalDepth_cons (x : Record) (l : List Record) :
    totalDepth (x :: l) = x.depth + totalDepth l := by
  simp [totalDepth]

theorem totalDepth_append (a b : List Record) :
    totalDepth (a ++ b) = totalDepth a + totalDepth b := by
  simp [totalDepth]

theorem totalDepth_nonneg {l : List Record} (h : ∀ x ∈ l, 0 ≤ x.depth) : 0 ≤ totalDepth l := by
  induction l with
  | nil => simp [totalDepth]
  | cons x l ih =>
    rw [totalDepth_cons]
    have := h x (List.mem_cons_self _ _)
    have := ih (fun y hy => h y (List.mem_cons_of_mem _ hy))
    omega

theorem overrun_out_ne_nil (bp : Int) (s : State) (r : Record) :
    (overrun bp (seqChange s r).1 r).2 ≠ [] ↔ Overruns bp s r := by
  simp only [seqChange, overrun, Overruns, bpBefore]
  split_ifs <;> simp_all

/-- The depth held by `bpInRegion` at line 257, in terms of the ghost. -/
theorem accAdd_total (s : State) (acc : List Record) (r : Record)
    (h : s.bpInRegion = totalDepth acc) :
    totalDepth (accAdd s acc r) = bpBefore s r + r.depth := by
  unfold accAdd bpBefore
  split_ifs <;> simp [totalDepth_append, totalDepth_cons, totalDepth_nil, h]

theorem accAdd_prefix {bp : Int} {s : State} {acc : List Record} (r : Record)
    (h : ∀ p, p <+: acc → p ≠ [] → totalDepth p ≤ bp) {p : List Record}
    (hp : p <+: accAdd s acc r) (hne : p ≠ accAdd s acc r) (hp0 : p ≠ []) :
    totalDepth p ≤ bp := by
  unfold accAdd at hp hne
  rcases List.prefix_concat_iff.mp hp with h1 | h1
  · exact absurd h1 hne
  · split_ifs at h1
    · exact absurd (List.prefix_nil.mp h1) hp0
    · exact h p h1 hp0

/-- One iteration keeps the invariant between `bpInRegion` and its ghost. -/
theorem accInv_step {bp : Int} {s : State} {acc : List Record} {r : Record}
    {rs : List Record} (h : AccInv bp s acc (r :: rs)) :
    wrap64 (bpBefore s r + r.depth) = bpBefore s r + r.depth
      ∧ AccInv bp (step bp s r).1 (accStep bp s acc r) rs := by
  obtain ⟨h1, h2, h3, h4, h5⟩ := h
  have hr : 0 ≤ r.depth := h5 r (List.mem_cons_self _ _)
  have hrs : 0 ≤ totalDepth rs := totalDepth_nonneg (fun y hy => h5 y (List.mem_cons_of_mem _ hy))
  rw [totalDepth_cons] at h4
  have hb1 : 0 ≤ bpBefore s r ∧ bpBefore s r ≤ s.bpInRegion := by
    unfold bpBefore; split_ifs <;> omega
  have hw : wrap64 (bpBefore s r + r.depth) = bpBefore s r + r.depth :=
    wrap64_eq (by omega) (by omega)
  refine ⟨hw, ?_⟩
  have ht := accAdd_total s acc r h1
  by_cases ho : Overruns bp s r
  · have e : accStep bp s acc r = [] := by
      unfold accStep; rw [if_pos ((overrun_out_ne_nil bp s r).mpr ho)]
    rw [e]
    refine ⟨by rw [step_bpInRegion, if_pos ho, totalDepth_nil], ?_,
      by rw [step_bpInRegion, if_pos ho], ?_, fun y hy => h5 y (List.mem_cons_of_mem _ hy)⟩
    · intro p hp hp0
      exact absurd (List.prefix_nil.mp hp) hp0
    · rw [step_bpInRegion, if_pos ho]; omega
  · have e : accStep bp s acc r = accAdd s acc r := by
      unfold accStep; rw [if_neg (fun hc => ho ((overrun_out_ne_nil bp s r).mp hc))]
    rw [e]
    have hle : bpBefore s r + r.depth ≤ bp := by
      unfold Overruns at ho; rw [hw] at ho; omega
    refine ⟨by rw [step_bpInRegion, if_neg ho, hw, ht], ?_,
      by rw [step_bpInRegion, if_neg ho, hw]; omega, ?_,
      fun y hy => h5 y (List.mem_cons_of_mem _ hy)⟩
    · intro p hp hp0
      by_cases hpe : p = accAdd s acc r
      · rw [hpe, ht]; exact hle
      · exact accAdd_prefix r h2 hp hpe hp0
    · rw [step_bpInRegion, if_neg ho, hw]; omega

/-- The scanner loop keeps the invariant between `bpInRegion` and its ghost. -/
theorem accInv_loop {bp : Int} (pre : List Record) :
    ∀ {s : State} {acc rest : List Record}, AccInv bp s acc (pre ++ rest) →
      AccInv bp (loop bp s pre).1 (accLoop bp s acc pre) rest := by
  induction pre with
  | nil => intro s acc rest h; exact h
  | cons x pre ih =>
    intro s acc rest h
    exact ih (accInv_step h).2

theorem accInv_init (bp : Int) {recs : List Record} (h : DepthsFit recs) :
    AccInv bp State.init [] recs := by
  refine ⟨rfl, ?_, le_refl _, ?_, h.1⟩
  · intro p hp hp0
    exact absurd (List.prefix_nil.mp hp) hp0
  · have := h.2
    simp only [State.init]
    omega

theorem accAdd_suffix {s : State} {acc base : List Record} (r : Record)
    (h : acc <:+ base) : accAdd s acc r <:+ base ++ [r] := by
  unfold accAdd
  split_ifs
  · exact List.suffix_append _ _
  · obtain ⟨t, rfl⟩ := h
    exact ⟨t, by simp⟩

/-- The ghost is always a block of the most recent records. -/
theorem accLoop_suffix (bp : Int) (pre : List Record) :
    ∀ (s : State) (acc base : List Record), acc <:+ base →
      accLoop bp s acc pre <:+ base ++ pre := by
  induction pre with
  | nil => intro s acc base h; simpa [accLoop] using h
  | cons x pre ih =>
    intro s acc base h
    have h1 : accStep bp s acc x <:+ base ++ [x] := by
      unfold accStep
      split_ifs
      · exact List.nil_suffix
      · exact accAdd_suffix x h
    have := ih (step bp s x).1 _ _ h1
    simpa [accLoop] using this

/-- At line 258 of the iteration on `r` after the records `pre`, `bpInRegion`
holds the summed depth of the records accumulated in the region. -/
theorem overruns_iff (bp : Int) {pre : List Record} {r : Record} {post : List Record}
    (hd : DepthsFit (pre ++ r :: post)) :
    Overruns bp (loop bp State.init pre).1 r ↔ totalDepth (regionRecords bp pre r) > bp := by
  have hinv := accInv_loop pre (accInv_init bp hd)
  have hstep := accInv_step hinv
  have ht := accAdd_total (loop bp State.init pre).1 (accLoop bp State.init [] pre) r hinv.sum_eq
  unfold Overruns regionRecords openRecords
  rw [hstep.1, ht]

/-- C2. Overshoot bound of `calculateRegions`: for a budget `bp ≥ 0` and an
input whose depths are non-negative and sum to an `int64`, whenever the overrun
block prints a region at a record `r` (after the records `pre`), the records
accumulated into that region have a summed depth `> bp`, that sum minus the
depth of `r` is `≤ bp`, and `r` is the first record of the region at which the
accumulated depth exceeds `bp`: every shorter prefix of the accumulated records
sums to `≤ bp`.  The region printed is `(r.seq, startPos, r.pos)`, and the
accumulated records are the most recent records of the input, up to `r`. -/
theorem overshoot_bound (bp : Int) (hb : 0 ≤ bp) (pre : List Record) (r : Record)
    (post : List Record) (hd : DepthsFit (pre ++ r :: post))
    (ho : (overrun bp (seqChange (loop bp State.init pre).1 r).1 r).2 ≠ []) :
    (overrun bp (seqChange (loop bp State.init pre).1 r).1 r).2
        = [⟨r.seq, (seqChange (loop bp State.init pre).1 r).1.startPos, r.pos⟩]
      ∧ totalDepth (regionRecords bp pre r) > bp
      ∧ totalDepth (regionRecords bp pre r) - r.depth ≤ bp
      ∧ totalDepth (regionRecords bp pre r) ≤ bp + r.depth
      ∧ (∀ p, p <+: regionRecords bp pre r → p ≠ regionRecords bp pre r → totalDepth p ≤ bp)
      ∧ regionRecords bp pre r <:+ pre ++ [r] := by
  have hsuf : regionRecords bp pre r <:+ pre ++ [r] := by
    have := accLoop_suffix bp pre State.init [] [] (List.suffix_refl _)
    exact accAdd_suffix r (by simpa using this)
  have hinv := accInv_loop pre (accInv_init bp hd)
  have hO := (overruns_iff bp hd).mp ((overrun_out_ne_nil bp _ r).mp ho)
  have ht := accAdd_total (loop bp State.init pre).1 (accLoop bp State.init [] pre) r hinv.sum_eq
  have hpre := hinv.prefix_le
  have hbb : bpBefore (loop bp State.init pre).1 r ≤ bp := by
    have h1 : (loop bp State.init pre).1.bpInRegion ≤ bp := by
      by_cases he : accLoop bp State.init [] pre = []
      · rw [hinv.sum_eq, he, totalDepth_nil]; exact hb
      · rw [hinv.sum_eq]; exact hpre _ List.prefix_rfl he
    unfold bpBefore; split_ifs <;> omega
  have hall : ∀ p, p <+: regionRecords bp pre r → p ≠ regionRecords bp pre r →
      totalDepth p ≤ bp := by
    intro p hp hne
    by_cases hp0 : p = []
    · rw [hp0, totalDepth_nil]; exact hb
    · exact accAdd_prefix r hpre hp hne hp0
  unfold regionRecords openRecords at hO ⊢
  refine ⟨?_, by omega, by omega, by omega, hall, hsuf⟩
  simp only [overrun] at ho ⊢
  split_ifs at ho ⊢
  · rfl
  · exact absurd rfl ho

/-- Records of depth 2 at positions 1, 2, 3 under a budget of 4: the overrun
block prints at position 3, where the accumulated depth is 6. -/
theorem overshoot_bound_witness :
    ((0 : Int) ≤ 4 ∧ DepthsFit ([⟨chr1, 1, 2⟩, ⟨chr1, 2, 2⟩] ++ ⟨chr1, 3, 2⟩ :: [])
      ∧ (overrun 4 (seqChange (loop 4 State.init [⟨chr1, 1, 2⟩, ⟨chr1, 2, 2⟩]).1
          ⟨chr1, 3, 2⟩).1 ⟨chr1, 3, 2⟩).2 ≠ [])
    ∧ ((overrun 4 (seqChange (loop 4 State.init [⟨chr1, 1, 2⟩, ⟨chr1, 2, 2⟩]).1
          ⟨chr1, 3, 2⟩).1 ⟨chr1, 3, 2⟩).2 = [⟨chr1, 1, 3⟩]
      ∧ totalDepth (regionRecords 4 [⟨chr1, 1, 2⟩, ⟨chr1, 2, 2⟩] ⟨chr1, 3, 2⟩) = 6) :=
  ⟨⟨by decide, by decide, by decide⟩,
    (overshoot_bound 4 (by decide) [⟨chr1, 1, 2⟩, ⟨chr1, 2, 2⟩] ⟨chr1, 3, 2⟩ []
      (by decide) (by decide)).1, by decide⟩

/-! ## C3: start and end of the emitted regions -/

/-- C3. On the lines "chr1 TAB 1 TAB 10" and "chr2 TAB 1 TAB 1" with a budget
of 5, `calculateRegions` prints `chr1:1-1` (overrun) and then, at the sequence
change, `chr1:2-1`, a region whose start lies behind its end. -/
theorem inverted_region_printed :
    calculateRegions 5 sampleC3 = ⟨[⟨chr1, 1, 1⟩, ⟨chr1, 2, 1⟩], false⟩
      ∧ ∃ g ∈ (calculateRegions 5 sampleC3).printed, g.stop < g.start := by
  decide

/-! ## C4: a sequence change forces a boundary -/

/-- A record of the current sequence that keeps the accumulated depth within
the budget changes `lastPos` and `bpInRegion` only and prints nothing. -/
theorem step_same_under {bp : Int} (hbp : bp < 9223372036854775808) {s : State} {r : Record}
    (hs : s.prevSeq = r.seq) (h0 : 0 ≤ s.bpInRegion) (hd : 0 ≤ r.depth)
    (hle : s.bpInRegion + r.depth ≤ bp) :
    step bp s r = (⟨r.seq, s.startPos, r.pos, s.bpInRegion + r.depth⟩, []) := by
  have hw : wrap64 (s.bpInRegion + r.depth) = s.bpInRegion + r.depth :=
    wrap64_eq (by omega) (by omega)
  simp only [step, seqChange, overrun, hs, hw, ne_eq, not_true_eq_false, if_false]
  rw [if_neg (by omega)]
  simp [← hs]

/-- The last position seen after the scanner has read `items`. -/
theorem loop_run_tail {bp : Int} (hbp : bp < 9223372036854775808) (name : Bytes) :
    ∀ (items : List (Int × Int)) (s : State), s.prevSeq = name → 0 ≤ s.bpInRegion →
      (∀ it ∈ items, 0 ≤ it.2) → s.bpInRegion + (items.map Prod.snd).sum ≤ bp →
      loop bp s (items.map (fun it => ⟨name, it.1, it.2⟩))
        = (⟨name, s.startPos, ((items.getLast?.map Prod.fst).getD s.lastPos),
            s.bpInRegion + (items.map Prod.snd).sum⟩, []) := by
  intro items
  induction items with
  | nil =>
    intro s hs _ _ _
    cases s
    simp_all [loop_nil]
  | cons it rest ih =>
    intro s hs h0 hd hle
    have hd1 : 0 ≤ it.2 := hd it (List.mem_cons_self _ _)
    have hd2 : ∀ x ∈ rest, 0 ≤ x.2 := fun x hx => hd x (List.mem_cons_of_mem _ hx)
    have hsum : 0 ≤ (rest.map Prod.snd).sum := by
      apply List.sum_nonneg
      intro v hv
      obtain ⟨x, hx, rfl⟩ := List.mem_map.mp hv
      exact hd2 x hx
    simp only [List.map_cons, List.sum_cons] at hle
    have e := step_same_under (r := ⟨name, it.1, it.2⟩) hbp hs h0 hd1 (by simp only; omega)
    rw [List.map_cons, loop_cons, e]
    simp only
    rw [ih _ rfl (by simp only; omega) hd2 (by simp only; omega)]
    simp only [List.nil_append, List.map_cons, List.sum_cons, Prod.mk.injEq, and_true]
    congr 1
    · cases rest with
      | nil => simp
      | cons y ys => simp [List.getLast?_eq_getLast _ (List.cons_ne_nil y ys)]
    · ring


/-- A run with at least two records and strictly increasing positions starts
before it ends. -/
theorem SeqRun.firstPos_lt_lastPos {bp : Int} {u : SeqRun} (h : u.UnderBudget bp) :
    u.firstPos < u.lastPos := by
  obtain ⟨-, hlen, hpw, -, -⟩ := h
  obtain ⟨name, items⟩ := u
  match items, hlen, hpw with
  | a :: b :: rest, _, hpw =>
    simp only [SeqRun.firstPos, SeqRun.lastPos, List.head?_cons, List.getLast?_cons_cons]
    rw [List.getLast?_eq_getLast _ (List.cons_ne_nil b rest)]
    simp only [List.map_cons, List.pairwise_cons] at hpw
    apply hpw.1
    exact List.mem_map_of_mem Prod.fst (List.getLast_mem (List.cons_ne_nil b rest))

/-- The scanner loop over one run that stays within the budget: the region of
the previous run is printed at the first record, and nothing else. -/
theorem loop_run {bp : Int} (hbp : bp < 9223372036854775808) {u : SeqRun}
    (h : u.UnderBudget bp) {s : State} (hs : s.prevSeq ≠ u.name)
    (hz : s.prevSeq = [] → s.bpInRegion = 0) :
    loop bp s u.records
      = (⟨u.name, u.firstPos, u.lastPos, u.depth⟩,
          if s.prevSeq = [] then [] else [⟨s.prevSeq, s.startPos, s.lastPos⟩]) := by
  obtain ⟨hne, hlen, -, hd, hle⟩ := h
  obtain ⟨name, items⟩ := u
  match items, hlen, hd, hle with
  | a :: rest, _, hd, hle =>
    have hd1 : 0 ≤ a.2 := hd a (List.mem_cons_self _ _)
    have hd2 : ∀ x ∈ rest, 0 ≤ x.2 := fun x hx => hd x (List.mem_cons_of_mem _ hx)
    have hsum : 0 ≤ (rest.map Prod.snd).sum := by
      apply List.sum_nonneg
      intro v hv
      obtain ⟨x, hx, rfl⟩ := List.mem_map.mp hv
      exact hd2 x hx
    simp only [SeqRun.depth, List.map_cons, List.sum_cons] at hle
    have hw : wrap64 (0 + a.2) = a.2 := by rw [zero_add]; exact wrap64_eq (by omega) (by omega)
    have hs2 : s.prevSeq ≠ name := hs
    have hb0 : bpBefore s ⟨name, a.1, a.2⟩ = 0 := by
      unfold bpBefore
      split_ifs with h1
      · rfl
      · exact hz (by_contra fun h2 => h1 ⟨hs2, h2⟩)
    have hno : ¬ Overruns bp s ⟨name, a.1, a.2⟩ := by
      unfold Overruns
      rw [hb0, hw]
      omega
    have e : step bp s ⟨name, a.1, a.2⟩
        = (⟨name, a.1, a.1, a.2⟩,
            if s.prevSeq = [] then [] else [⟨s.prevSeq, s.startPos, s.lastPos⟩]) := by
      apply Prod.ext
      · apply State.ext_fields
        · rw [step_prevSeq]
        · rw [step_startPos, if_neg hno]; unfold startBefore; rw [if_pos hs2]
        · rw [step_lastPos]
        · rw [step_bpInRegion, if_neg hno, hb0, hw]
      · rw [step_out, if_neg hno, List.append_nil]
        by_cases hp : s.prevSeq = []
        · rw [if_pos hp, if_neg (fun h => h.2 hp)]
        · rw [if_neg hp, if_pos ⟨hs2, hp⟩]
    simp only [SeqRun.records, List.map_cons]
    rw [loop_cons, e]
    simp only
    rw [loop_run_tail hbp name rest _ rfl hd1 hd2 (by simp only; omega)]
    simp only [List.append_nil, SeqRun.firstPos, SeqRun.lastPos, SeqRun.depth, List.head?_cons,
      List.map_cons, List.sum_cons, Prod.mk.injEq, and_true]
    congr 1
    cases rest with
    | nil => simp
    | cons y ys => simp [List.getLast?_cons_cons, List.getLast?_eq_getLast _ (List.cons_ne_nil y ys)]

theorem recordsOfRuns_cons (u : SeqRun) (us : List SeqRun) :
    recordsOfRuns (u :: us) = u.records ++ recordsOfRuns us := by
  simp [recordsOfRuns]

/-- The output from a state that has just read a run, over the runs that
follow. -/
theorem regions_after_run {bp : Int} (hbp : bp < 9223372036854775808) (us : List SeqRun) :
    ∀ (s : State), s.prevSeq ≠ [] → s.lastPos > s.startPos →
      List.Chain (· ≠ ·) s.prevSeq (us.map SeqRun.name) → (∀ u ∈ us, u.UnderBudget bp) →
      (loop bp s (recordsOfRuns us)).2 ++ flush (loop bp s (recordsOfRuns us)).1
        = ⟨s.prevSeq, s.startPos, s.lastPos⟩ :: us.map SeqRun.region := by
  induction us with
  | nil =>
    intro s _ hlt _ _
    simp [recordsOfRuns, loop_nil, flush, hlt]
  | cons u us ih =>
    intro s hne hlt hch hu
    simp only [List.map_cons, List.chain_cons] at hch
    have hu1 := hu u (List.mem_cons_self _ _)
    have e := loop_run hbp hu1 hch.1 (fun h => absurd h hne)
    rw [recordsOfRuns_cons, loop_append, e]
    simp only [if_neg hne, List.append_assoc]
    have := ih ⟨u.name, u.firstPos, u.lastPos, u.depth⟩ hu1.1
      (SeqRun.firstPos_lt_lastPos hu1) hch.2 (fun v hv => hu v (List.mem_cons_of_mem _ hv))
    rw [this]
    rfl

/-- C4. A sequence change forces a boundary even under budget: on an input
made of runs with pairwise distinct non-empty names, each with at least two
records, strictly increasing positions, non-negative depths and a total depth
within the budget (an `int64`), `calculateRegions` emits exactly one region per
run, in input order: `(run name, first position, last position)`. -/
theorem sequence_change_boundary (bp : Int) (hbp : bp < 9223372036854775808)
    (runs : List SeqRun) (hn : (runs.map SeqRun.name).Nodup)
    (hu : ∀ u ∈ runs, u.UnderBudget bp) :
    regions bp (recordsOfRuns runs) = runs.map SeqRun.region := by
  cases runs with
  | nil => simp [regions, recordsOfRuns, loop_nil, flush, State.init]
  | cons u us =>
    have hu1 := hu u (List.mem_cons_self _ _)
    have hch : List.Chain (· ≠ ·) u.name (us.map SeqRun.name) := by
      have := (List.Pairwise.chain' hn)
      simpa [List.Chain'] using this
    have e := loop_run (s := State.init) hbp hu1 (fun h => hu1.1 h.symm) (fun _ => rfl)
    unfold regions
    simp only
    rw [recordsOfRuns_cons, loop_append, e]
    simp only [State.init, if_true, List.nil_append]
    exact regions_after_run hbp us ⟨u.name, u.firstPos, u.lastPos, u.depth⟩ hu1.1
      (SeqRun.firstPos_lt_lastPos hu1) hch (fun v hv => hu v (List.mem_cons_of_mem _ hv))

/-- The runs chr1 (positions 1 to 5) and chr2 (positions 1 to 5), depth 1 each,
under a budget of 6 give exactly `chr1:1-5` and `chr2:1-5`. -/
theorem sequence_change_boundary_witness :
    ((6 : Int) < 9223372036854775808 ∧ (sampleC4.map SeqRun.name).Nodup
      ∧ ∀ u ∈ sampleC4, u.UnderBudget 6)
    ∧ regions 6 (recordsOfRuns sampleC4) = [⟨chr1, 1, 5⟩, ⟨chr2, 1, 5⟩] :=
  ⟨⟨by decide, by decide, by decide⟩,
    sequence_change_boundary 6 (by decide) sampleC4 (by decide) (by decide)⟩

/-! ## C5: the budget comparison is strict -/

theorem loop_prevSeq_snoc (bp : Int) (s : State) (xs : List Record) (l : Record) :
    (loop bp s (xs ++ [l])).1.prevSeq = l.seq := by
  rw [loop_snoc_state, step_prevSeq]

/-- On a single-sequence input the sequence-change block never prints. -/
theorem no_closing_of_single (bp : Int) {pre : List Record} {r : Record} {post : List Record}
    (hs : SingleSequence (pre ++ r :: post)) :
    ¬ ((loop bp State.init pre).1.prevSeq ≠ r.seq ∧ (loop bp State.init pre).1.prevSeq ≠ []) := by
  rintro ⟨h1, h2⟩
  rcases List.eq_nil_or_concat pre with rfl | ⟨xs, l, rfl⟩
  · exact h2 rfl
  · rw [List.concat_eq_append] at *
    rw [loop_prevSeq_snoc] at h1
    exact h1 (hs l (by simp) r (by simp))

/-- C5. Strict budget comparison: on a single-sequence input (depths
non-negative, total an `int64`), the iteration on a record `r` prints a region
exactly when the depth accumulated in the region, `r` included, is strictly
greater than the budget; when it equals the budget nothing is printed. -/
theorem strict_budget (bp : Int) (pre : List Record) (r : Record) (post : List Record)
    (hs : SingleSequence (pre ++ r :: post)) (hd : DepthsFit (pre ++ r :: post)) :
    (step bp (loop bp State.init pre).1 r).2
        = (if totalDepth (regionRecords bp pre r) > bp
            then [⟨r.seq, (seqChange (loop bp State.init pre).1 r).1.startPos, r.pos⟩] else [])
      ∧ (totalDepth (regionRecords bp pre r) = bp → (step bp (loop bp State.init pre).1 r).2 = [])
      ∧ ((step bp (loop bp State.init pre).1 r).2 ≠ [] → totalDepth (regionRecords bp pre r) > bp) := by
  have hnc := no_closing_of_single bp hs
  have hiff := overruns_iff bp hd
  have e : (step bp (loop bp State.init pre).1 r).2
      = (if totalDepth (regionRecords bp pre r) > bp
          then [⟨r.seq, (seqChange (loop bp State.init pre).1 r).1.startPos, r.pos⟩] else []) := by
    rw [step_out, if_neg hnc, List.nil_append]
    have hst : (seqChange (loop bp State.init pre).1 r).1.startPos
        = startBefore (loop bp State.init pre).1 r := by
      simp only [seqChange, startBefore]
      split_ifs <;> rfl
    rw [hst]
    by_cases ho : Overruns bp (loop bp State.init pre).1 r
    · rw [if_pos ho, if_pos (hiff.mp ho)]
    · rw [if_neg ho, if_neg (fun h => ho (hiff.mpr h))]
  refine ⟨e, ?_, ?_⟩
  · intro heq
    rw [e, if_neg (by omega)]
  · intro hne
    by_contra hle
    rw [e, if_neg hle] at hne
    exact hne rfl

/-- Depths 2, 2, 2 at positions 1, 2, 3 under a budget of 4: at position 2 the
accumulated depth is exactly 4 and nothing is printed; the whole input gives
the single region `chr1:1-3`. -/
theorem strict_budget_witness :
    (SingleSequence ([⟨chr1, 1, 2⟩] ++ ⟨chr1, 2, 2⟩ :: [⟨chr1, 3, 2⟩])
      ∧ DepthsFit ([⟨chr1, 1, 2⟩] ++ ⟨chr1, 2, 2⟩ :: [⟨chr1, 3, 2⟩])
      ∧ totalDepth (regionRecords 4 [⟨chr1, 1, 2⟩] ⟨chr1, 2, 2⟩) = 4)
    ∧ (step 4 (loop 4 State.init [⟨chr1, 1, 2⟩]).1 ⟨chr1, 2, 2⟩).2 = []
    ∧ regions 4 sampleC2 = [⟨chr1, 1, 3⟩] :=
  ⟨⟨by decide, by decide, by decide⟩,
    (strict_budget 4 [⟨chr1, 1, 2⟩] ⟨chr1, 2, 2⟩ [⟨chr1, 3, 2⟩] (by decide) (by decide)).2.1
      (by decide), by decide⟩

/-! ## C6: the trailing flush -/

/-- C6, as stated, fails for a record with an empty sequence name: the line
"TAB 1 TAB 1" (depth 1, budget 100) leaves `prevSeq` and `startPos` at their
zero values, so the flush sees `lastPos = 1 > 0 = startPos` and prints
`:0-1`. -/
theorem trailing_flush_empty_name :
    (⟨[], 1, 1⟩ : Record).depth ≤ 100
      ∧ regions 100 [⟨[], 1, 1⟩] = [⟨[], 0, 1⟩]
      ∧ calculateRegions 100 sampleC6 = ⟨[⟨[], 0, 1⟩], false⟩ := by
  decide

theorem wrap64_isInt64 (x : Int) : IsInt64 (wrap64 x) := by
  unfold IsInt64 wrap64
  omega

/-- What the digit loop returns is an `int64`. -/
theorem parseNum_isInt64 (field : Bytes) : IsInt64 (parseNum field) := by
  induction field using List.reverseRecOn with
  | nil => simp [parseNum, IsInt64]
  | append_singleton ds c _ =>
    simp only [parseNum, List.foldl_append, List.foldl_cons, List.foldl_nil]
    exact wrap64_isInt64 _

theorem parseLine_depth_isInt64 {line : Bytes} {r : Record} (h : parseLine line = some r) :
    IsInt64 r.depth := by
  unfold parseLine at h
  split at h
  · simp at h
  · split at h
    · simp at h
    · simp only [Option.some.injEq] at h
      subst h
      exact parseNum_isInt64 _

/-- C6 (amended). After the last record exactly one further region
`(prevSeq, startPos, lastPos)` is emitted if `lastPos > startPos`, and nothing
otherwise; and an input of a single line whose record has a non-empty sequence
name and a depth within the budget gives no region at all. -/
theorem trailing_flush (bp : Int) (line : Bytes) (r : Record)
    (hp : parseLine line = some r) (hne : r.seq ≠ []) (hle : r.depth ≤ bp) :
    (∀ recs : List Record, regions bp recs = (loop bp State.init recs).2 ++
        (if (finalState bp recs).lastPos > (finalState bp recs).startPos
          then [⟨(finalState bp recs).prevSeq, (finalState bp recs).startPos,
            (finalState bp recs).lastPos⟩] else []))
      ∧ regions bp [r] = []
      ∧ calculateRegions bp [line] = ⟨[], false⟩ := by
  have hi : IsInt64 r.depth := parseLine_depth_isInt64 hp
  have hs : State.init.prevSeq ≠ r.seq := fun h => hne h.symm
  have hb0 : bpBefore State.init r = 0 := by
    unfold bpBefore; split_ifs <;> rfl
  have hw : wrap64 (0 + r.depth) = r.depth := by
    rw [zero_add]; exact wrap64_eq hi.1 hi.2
  have hno : ¬ Overruns bp State.init r := by
    unfold Overruns; rw [hb0, hw]; omega
  have h1 : (step bp State.init r).2 = [] := by
    rw [step_out, if_neg hno, if_neg (fun h => h.2 rfl)]; rfl
  have h2 : (step bp State.init r).1.startPos = r.pos := by
    rw [step_startPos, if_neg hno]; unfold startBefore; rw [if_pos hs]
  have h3 : (step bp State.init r).1.lastPos = r.pos := step_lastPos bp _ r
  have hreg : regions bp [r] = [] := by
    unfold regions
    simp only [loop_cons, loop_nil, h1, List.append_nil, List.nil_append, flush, h2, h3]
    rw [if_neg (by omega)]
  refine ⟨fun recs => rfl, hreg, ?_⟩
  rw [calculateRegions_of_parsed bp [line] [r] (by simp [hp]), hreg]

/-- The line "chr1 TAB 1 TAB 1" under a budget of 100 gives no output. -/
theorem trailing_flush_witness :
    (parseLine (chr1 ++ [9, 49, 9, 49]) = some ⟨chr1, 1, 1⟩ ∧ chr1 ≠ [] ∧ (1 : Int) ≤ 100)
      ∧ calculateRegions 100 [chr1 ++ [9, 49, 9, 49]] = ⟨[], false⟩ :=
  ⟨⟨by decide, by decide, by decide⟩,
    (trailing_flush 100 (chr1 ++ [9, 49, 9, 49]) ⟨chr1, 1, 1⟩ (by decide) (by decide)
      (by decide)).2.2⟩

/-! ## C7: consecutive regions of one sequence are contiguous -/

theorem link_overrun {bp : Int} {s : State} {r : Record} {rs : List Record}
    (hf : PosFit (r :: rs)) (ho : Overruns bp s r) :
    Link ⟨r.seq, startBefore s r, r.pos⟩ (step bp s r).1 rs := by
  have hr := hf r (List.mem_cons_self _ _)
  constructor
  · intro _
    rw [step_startPos, if_pos ho, wrap64_eq hr.1 hr.2]
  · intro h
    rw [step_prevSeq] at h
    exact absurd rfl h

theorem link_closing {bp : Int} {s : State} {r : Record} {rs : List Record}
    (hc : ContigNames (s.prevSeq :: (r :: rs).map Record.seq)) (hs : s.prevSeq ≠ r.seq) :
    Link ⟨s.prevSeq, s.startPos, s.lastPos⟩ (step bp s r).1 rs := by
  have h2 : s.prevSeq ∉ (r :: rs).map Record.seq := hc.1 r.seq (by simp) hs
  constructor
  · intro h
    rw [step_prevSeq] at h
    exact absurd h hs
  · intro _ hm
    exact h2 (by simp only [List.map_cons]; exact List.mem_cons_of_mem _ hm)

/-- A record of the sequence of the region printed last finds the open region
starting right after that region. -/
theorem startBefore_of_link {g : Region} {s : State} {r : Record} {rs : List Record}
    (hl : Link g s (r :: rs)) (hg : g.seq = r.seq) : startBefore s r = g.stop + 1 := by
  unfold startBefore
  by_cases hs : s.prevSeq = r.seq
  · rw [if_neg (not_not.mpr hs)]
    exact hl.1 (hg.trans hs.symm)
  · exfalso
    have hne : g.seq ≠ s.prevSeq := fun h => hs (h.symm.trans hg)
    exact hl.2 hne (by simp [hg])

theorem link_keep {bp : Int} {g : Region} {s : State} {r : Record} {rs : List Record}
    (hc : ContigNames (s.prevSeq :: (r :: rs).map Record.seq)) (hl : Link g s (r :: rs))
    (ho : ¬ Overruns bp s r) :
    Link g (step bp s r).1 rs := by
  constructor
  · intro h
    rw [step_prevSeq] at h
    rw [step_startPos, if_neg ho]
    exact startBefore_of_link hl h
  · intro h hm
    rw [step_prevSeq] at h
    by_cases hgs : g.seq = s.prevSeq
    · have hs : s.prevSeq ≠ r.seq := fun e => h (hgs.trans e)
      have h2 : s.prevSeq ∉ (r :: rs).map Record.seq := hc.1 r.seq (by simp) hs
      rw [← hgs] at h2
      exact h2 (by simp only [List.map_cons]; exact List.mem_cons_of_mem _ hm)
    · exact hl.2 hgs (by simp only [List.map_cons]; exact List.mem_cons_of_mem _ hm)

/-- The output that follows a printed region `g` continues it. -/
theorem chain_after (bp : Int) (ys : List Record) :
    ∀ (s : State) (g : Region), ContigNames (s.prevSeq :: ys.map Record.seq) → PosFit ys →
      Link g s ys →
      List.Chain Adjoins g ((loop bp s ys).2 ++ flush (loop bp s ys).1) := by
  induction ys with
  | nil =>
    intro s g _ _ hl
    simp only [loop_nil, List.nil_append, flush]
    split_ifs
    · exact List.Chain.cons (fun h => hl.1 h) List.Chain.nil
    · exact List.Chain.nil
  | cons r rs ih =>
    intro s g hc hf hl
    have hc' : ContigNames ((step bp s r).1.prevSeq :: rs.map Record.seq) := by
      rw [step_prevSeq]; exact hc.2
    have hf' : PosFit rs := fun x hx => hf x (List.mem_cons_of_mem _ hx)
    rw [loop_cons]
    simp only
    rw [step_out, List.append_assoc, List.append_assoc]
    by_cases hcl : s.prevSeq ≠ r.seq ∧ s.prevSeq ≠ []
    · rw [if_pos hcl]
      have hg1 : Adjoins g ⟨s.prevSeq, s.startPos, s.lastPos⟩ := fun h => hl.1 h
      by_cases ho : Overruns bp s r
      · rw [if_pos ho]
        refine List.Chain.cons hg1 (List.Chain.cons (fun h => absurd h hcl.1) ?_)
        exact ih _ _ hc' hf' (link_overrun hf ho)
      · rw [if_neg ho]
        refine List.Chain.cons hg1 ?_
        exact ih _ _ hc' hf' (link_closing hc hcl.1)
    · rw [if_neg hcl]
      by_cases ho : Overruns bp s r
      · rw [if_pos ho]
        refine List.Chain.cons (fun h => startBefore_of_link hl h) ?_
        exact ih _ _ hc' hf' (link_overrun hf ho)
      · rw [if_neg ho]
        exact ih _ _ hc' hf' (link_keep hc hl ho)

/-- The output of the scanner loop and the flush from any state. -/
theorem chain_from (bp : Int) (ys : List Record) :
    ∀ (s : State), ContigNames (ys.map Record.seq) →
      (s.prevSeq ≠ [] → ContigNames (s.prevSeq :: ys.map Record.seq)) → PosFit ys →
      List.Chain' Adjoins ((loop bp s ys).2 ++ flush (loop bp s ys).1) := by
  induction ys with
  | nil =>
    intro s _ _ _
    simp only [loop_nil, List.nil_append, flush]
    split_ifs
    · exact List.chain'_singleton _
    · exact List.chain'_nil
  | cons r rs ih =>
    intro s hn hc hf
    have hc' : ContigNames ((step bp s r).1.prevSeq :: rs.map Record.seq) := by
      rw [step_prevSeq]; exact hn
    have hf' : PosFit rs := fun x hx => hf x (List.mem_cons_of_mem _ hx)
    rw [loop_cons]
    simp only
    rw [step_out, List.append_assoc, List.append_assoc]
    by_cases hcl : s.prevSeq ≠ r.seq ∧ s.prevSeq ≠ []
    · rw [if_pos hcl]
      by_cases ho : Overruns bp s r
      · rw [if_pos ho]
        refine List.Chain.cons (fun h => absurd h hcl.1) ?_
        exact chain_after bp rs _ _ hc' hf' (link_overrun hf ho)
      · rw [if_neg ho]
        exact chain_after bp rs _ _ hc' hf' (link_closing (hc hcl.2) hcl.1)
    · rw [if_neg hcl]
      by_cases ho : Overruns bp s r
      · rw [if_pos ho]
        exact chain_after bp rs _ _ hc' hf' (link_overrun hf ho)
      · rw [if_neg ho]
        exact ih _ hn.2 (fun _ => hc') hf'

/-- C7. Contiguity: on an input in which each sequence name occurs in one
contiguous run (and no position is the largest `int64`), any two consecutively
emitted regions of `calculateRegions` that carry the same sequence name satisfy
`next.start = prev.stop + 1`.  The order of the positions plays no part. -/
theorem contiguity (bp : Int) (recs : List Record) (hc : Contiguous recs) (hf : PosFit recs) :
    List.Chain' Adjoins (regions bp recs) :=
  chain_from bp recs State.init hc (fun h => absurd rfl h) hf

/-- Depths 2 at positions 1 to 4 under a budget of 3: the regions `chr1:1-2`
and `chr1:3-4`. -/
theorem contiguity_witness :
    (Contiguous sampleC7 ∧ PosFit sampleC7)
      ∧ List.Chain' Adjoins (regions 3 sampleC7)
      ∧ regions 3 sampleC7 = [⟨chr1, 1, 2⟩, ⟨chr1, 3, 4⟩] :=
  ⟨⟨by decide, by decide⟩, contiguity 3 sampleC7 (by decide) (by decide), by decide⟩

/-! ## C8: number of regions against number of sequences -/

/-- C8. On the single line "chr1 TAB 1 TAB 1" with a budget of 100 the input
covers one sequence and `calculateRegions` prints no region. -/
theorem lone_record_no_region :
    calculateRegions 100 sampleC8 = ⟨[], false⟩
      ∧ regions 100 [⟨chr1, 1, 1⟩] = []
      ∧ coveredSequences [⟨chr1, 1, 1⟩] = 1
      ∧ NamesNonEmpty [⟨chr1, 1, 1⟩] ∧ Contiguous [⟨chr1, 1, 1⟩]
      ∧ StrictlyIncreasing [⟨chr1, 1, 1⟩] := by
  decide

/-! ## C9: the budget derived from the region count -/

theorem floor_le_roundHalfEven (x : ℚ) : ⌊x⌋ ≤ roundHalfEven x := by
  unfold roundHalfEven
  split_ifs <;> omega

theorem roundHalfEven_le_of_le {x : ℚ} {M : Int} (h : x ≤ (M : ℚ)) : roundHalfEven x ≤ M := by
  have hfl : (⌊x⌋ : ℚ) ≤ x := Int.floor_le x
  have h0 : ⌊x⌋ ≤ M := by
    have : ((⌊x⌋ : Int) : ℚ) ≤ (M : ℚ) := le_trans hfl h
    exact_mod_cast this
  unfold roundHalfEven
  split_ifs with h1 h2 h3
  · exact h0
  · have : ((⌊x⌋ : Int) : ℚ) < (M : ℚ) := by linarith
    have : ⌊x⌋ < M := by exact_mod_cast this
    omega
  · exact h0
  · have hx : x - ⌊x⌋ = 1 / 2 := le_antisymm (not_lt.mp h2) (not_lt.mp h1)
    have : ((⌊x⌋ : Int) : ℚ) < (M : ℚ) := by linarith
    have : ⌊x⌋ < M := by exact_mod_cast this
    omega

theorem le_roundHalfEven_of_le {x : ℚ} {M : Int} (h : (M : ℚ) ≤ x) : M ≤ roundHalfEven x :=
  le_trans (Int.le_floor.mpr h) (floor_le_roundHalfEven x)

theorem roundHalfEven_of_half_lt {x : ℚ} (h : 1 / 2 < x - ⌊x⌋) :
    roundHalfEven x = ⌊x⌋ + 1 := by
  unfold roundHalfEven
  rw [if_neg (not_lt.mpr (le_of_lt h)), if_pos h]

theorem ulp_pos (q : ℚ) : 0 < ulp q := by
  unfold ulp
  positivity

theorem roundF64_of_pos {q : ℚ} (h : 0 < q) :
    roundF64 q = (roundHalfEven (q / ulp q) : ℚ) * ulp q := by
  unfold roundF64
  rw [if_neg (ne_of_gt h), if_pos h]

/-- Rounding does not cross a multiple of the spacing. -/
theorem le_roundF64_of_grid {q : ℚ} (h : 0 < q) {M : Int} (hM : (M : ℚ) * ulp q ≤ q) :
    (M : ℚ) * ulp q ≤ roundF64 q := by
  rw [roundF64_of_pos h]
  have hu := ulp_pos q
  have h1 : (M : ℚ) ≤ q / ulp q := (le_div_iff₀ hu).mpr hM
  have h2 : ((M : Int) : ℚ) ≤ (roundHalfEven (q / ulp q) : ℚ) := by
    exact_mod_cast le_roundHalfEven_of_le h1
  exact mul_le_mul_of_nonneg_right h2 (le_of_lt hu)

theorem roundF64_le_of_grid {q : ℚ} (h : 0 < q) {M : Int} (hM : q ≤ (M : ℚ) * ulp q) :
    roundF64 q ≤ (M : ℚ) * ulp q := by
  rw [roundF64_of_pos h]
  have hu := ulp_pos q
  have h1 : q / ulp q ≤ (M : ℚ) := (div_le_iff₀ hu).mpr hM
  have h2 : (roundHalfEven (q / ulp q) : ℚ) ≤ ((M : Int) : ℚ) := by
    exact_mod_cast roundHalfEven_le_of_le h1
  exact mul_le_mul_of_nonneg_right h2 (le_of_lt hu)

/-- The number `c * 2 ^ j` is a multiple of the spacing around `q` when `j` is
not below the exponent of the spacing. -/
theorem grid_multiple (q : ℚ) (c j : Int) (hj : Int.log 2 q - 52 ≤ j) :
    ∃ M : Int, (c : ℚ) * (2 : ℚ) ^ j = (M : ℚ) * ulp q := by
  refine ⟨c * 2 ^ (j - (Int.log 2 q - 52)).toNat, ?_⟩
  have hd : 0 ≤ j - (Int.log 2 q - 52) := by omega
  have e1 : ((2 : ℚ) ^ (j - (Int.log 2 q - 52)).toNat) = (2 : ℚ) ^ (j - (Int.log 2 q - 52)) := by
    rw [← zpow_natCast, Int.toNat_of_nonneg hd]
  have e2 : (2 : ℚ) ^ j = (2 : ℚ) ^ (j - (Int.log 2 q - 52)) * (2 : ℚ) ^ (Int.log 2 q - 52) := by
    rw [← zpow_add₀ (by norm_num : (2 : ℚ) ≠ 0)]
    congr 1
    ring
  unfold ulp
  push_cast
  rw [e1, e2]
  ring

/-- A multiple of the spacing is a `float64`: rounding leaves it as it is. -/
theorem roundF64_of_grid {q : ℚ} (h : 0 < q) (c j : Int) (hq : q = (c : ℚ) * (2 : ℚ) ^ j)
    (hj : Int.log 2 q - 52 ≤ j) : roundF64 q = q := by
  obtain ⟨M, hM⟩ := grid_multiple q c j hj
  rw [← hq] at hM
  apply le_antisymm
  · have := roundF64_le_of_grid h (M := M) (le_of_eq hM)
    rw [← hM] at this
    exact this
  · have := le_roundF64_of_grid h (M := M) (le_of_eq hM.symm)
    rw [← hM] at this
    exact this

theorem log_lt_of_lt {q : ℚ} (h : 0 < q) {x : Int} (hx : q < (2 : ℚ) ^ x) : Int.log 2 q < x := by
  have := (Int.lt_zpow_iff_log_lt (R := ℚ) (b := 2) (by norm_num) (x := x) h).mp
    (by simpa using hx)
  exact this

theorem le_log_of_le {q : ℚ} (h : 0 < q) {x : Int} (hx : (2 : ℚ) ^ x ≤ q) : x ≤ Int.log 2 q := by
  have := (Int.zpow_le_iff_le_log (R := ℚ) (b := 2) (by norm_num) (x := x) h).mp
    (by simpa using hx)
  exact this

theorem zpow_log_le {q : ℚ} (h : 0 < q) : (2 : ℚ) ^ Int.log 2 q ≤ q := by
  have := Int.zpow_log_le_self (R := ℚ) (b := 2) (by norm_num) h
  simpa using this

/-- An integer between 1 and `2^53` is a `float64`. -/
theorem toFloat64_exact {T : Int} (h1 : 1 ≤ T) (h2 : T ≤ 9007199254740992) :
    toFloat64 T = (T : ℚ) := by
  unfold toFloat64
  have hpos : (0 : ℚ) < (T : ℚ) := by exact_mod_cast (by omega : (0 : Int) < T)
  by_cases hT : T = 9007199254740992
  · subst hT
    have e : ((9007199254740992 : Int) : ℚ) = ((1 : Int) : ℚ) * (2 : ℚ) ^ (53 : Int) := by
      norm_num
    have hl : Int.log 2 ((9007199254740992 : Int) : ℚ) < 54 :=
      log_lt_of_lt hpos (by norm_num)
    exact roundF64_of_grid hpos 1 53 e (by omega)
  · have hlt : (T : ℚ) < (2 : ℚ) ^ (53 : Int) := by
      have : T < 9007199254740992 := by omega
      have : (T : ℚ) < ((9007199254740992 : Int) : ℚ) := by exact_mod_cast this
      norm_num at this ⊢
      exact this
    have hl := log_lt_of_lt hpos hlt
    exact roundF64_of_grid hpos T 0 (by simp) (by omega)

theorem roundF64_zero : roundF64 0 = 0 := by
  unfold roundF64
  rw [if_pos rfl]

theorem roundF64_pos {q : ℚ} (h : 0 < q) : 0 < roundF64 q := by
  obtain ⟨M, hM⟩ := grid_multiple q 1 (Int.log 2 q) (by omega)
  have h1 : (M : ℚ) * ulp q ≤ q := by
    rw [← hM]
    simpa using zpow_log_le h
  have h2 := le_roundF64_of_grid h h1
  have h3 : (0 : ℚ) < (M : ℚ) * ulp q := by
    rw [← hM]
    positivity
  linarith

theorem roundF64_intCast {T : Int} (h1 : 1 ≤ T) (h2 : T ≤ 9007199254740992) :
    roundF64 (T : ℚ) = (T : ℚ) :=
  toFloat64_exact h1 h2

theorem toInt64_intCast {z : Int} (h0 : 0 ≤ z) (h1 : z < 9223372036854775808) :
    toInt64 (z : ℚ) = z := by
  unfold toInt64
  have a : (-9223372036854775808 : ℚ) ≤ (z : ℚ) := by
    have : (-9223372036854775808 : Int) ≤ z := by omega
    exact_mod_cast this
  have b : (z : ℚ) < 9223372036854775808 := by exact_mod_cast h1
  have c : (0 : ℚ) ≤ (z : ℚ) := by exact_mod_cast h0
  rw [if_pos ⟨a, b⟩, if_pos c, Int.floor_intCast]

theorem ceilDiv_eq_of_rem {T n k r : Int} (hn : 0 < n) (hT : T = n * k + r) (h0 : 0 < r)
    (h1 : r ≤ n) : ceilDiv T n = k + 1 := by
  unfold ceilDiv
  have e : T + n - 1 = (r - 1) + n * (k + 1) := by rw [hT]; ring
  rw [e, Int.add_mul_ediv_left _ _ (ne_of_gt hn), Int.ediv_eq_zero_of_lt (by omega) (by omega)]
  ring

theorem ceilDiv_zero {n : Int} (hn : 0 < n) : ceilDiv 0 n = 0 := by
  unfold ceilDiv
  exact Int.ediv_eq_zero_of_lt (by omega) (by omega)

/-- The quotient of two small integers is rounded to a number above its
integer part. -/
theorem floor_lt_roundF64_div {T n k r : Int} (hn : 0 < n) (hT : T = n * k + r)
    (hk : 1 ≤ k) (h0 : 0 < r) (h1 : r < n) (hT2 : T ≤ 9007199254740992) :
    (k : ℚ) < roundF64 ((T : ℚ) / (n : ℚ)) := by
  have hnq : (0 : ℚ) < (n : ℚ) := by exact_mod_cast hn
  have hkq : (1 : ℚ) ≤ (k : ℚ) := by exact_mod_cast hk
  have hrq : (1 : ℚ) ≤ (r : ℚ) := by exact_mod_cast (by omega : (1 : Int) ≤ r)
  have hTq : (T : ℚ) = (n : ℚ) * (k : ℚ) + (r : ℚ) := by exact_mod_cast hT
  set q : ℚ := (T : ℚ) / (n : ℚ) with hq
  have hqk : q = (k : ℚ) + (r : ℚ) / (n : ℚ) := by
    rw [hq, hTq]; field_simp; ring
  have hrn : (0 : ℚ) < (r : ℚ) / (n : ℚ) := by positivity
  have hqpos : 0 < q := by rw [hqk]; linarith
  have hq1 : (1 : ℚ) ≤ q := by rw [hqk]; linarith
  have he0 : 0 ≤ Int.log 2 q := le_log_of_le hqpos (by simpa using hq1)
  -- the power `2 ^ e` is an integer not above `k`
  have hpow : (2 : ℚ) ^ Int.log 2 q = (((2 : Int) ^ (Int.log 2 q).toNat : Int) : ℚ) := by
    push_cast
    rw [← zpow_natCast, Int.toNat_of_nonneg he0]
  have hPq : (((2 : Int) ^ (Int.log 2 q).toNat : Int) : ℚ) * (n : ℚ) ≤ (T : ℚ) := by
    rw [← hpow]
    have := zpow_log_le hqpos
    rw [hq] at this ⊢
    exact (le_div_iff₀ hnq).mp this
  have hP : (2 : Int) ^ (Int.log 2 q).toNat * n ≤ T := by exact_mod_cast hPq
  have hPk : (2 : Int) ^ (Int.log 2 q).toNat ≤ k := by
    by_contra hc
    have hc' : k + 1 ≤ (2 : Int) ^ (Int.log 2 q).toNat := by omega
    have : (k + 1) * n ≤ (2 : Int) ^ (Int.log 2 q).toNat * n :=
      mul_le_mul_of_nonneg_right hc' (le_of_lt hn)
    nlinarith
  have hPn : (2 : ℚ) ^ Int.log 2 q * (n : ℚ) < 9007199254740992 := by
    rw [hpow]
    have h2 : (2 : Int) ^ (Int.log 2 q).toNat * n ≤ k * n :=
      mul_le_mul_of_nonneg_right hPk (le_of_lt hn)
    have h3 : (2 : Int) ^ (Int.log 2 q).toNat * n < 9007199254740992 := by nlinarith
    exact_mod_cast h3
  -- the spacing is twice `2 ^ (e - 53)`, which is below `r / n`
  have hu : ulp q = (2 : ℚ) ^ Int.log 2 q / 4503599627370496 := by
    unfold ulp
    rw [zpow_sub₀ (by norm_num : (2 : ℚ) ≠ 0)]
    norm_num
  have hupos := ulp_pos q
  have hhalf : ulp q / 2 < (r : ℚ) / (n : ℚ) := by
    rw [hu, div_div, div_lt_div_iff₀ (by norm_num) hnq]
    nlinarith
  -- `k` is a multiple of the spacing
  have hlog : Int.log 2 q < 53 := by
    apply log_lt_of_lt hqpos
    have : q ≤ (T : ℚ) := by
      rw [hq]
      have hT0 : (0 : ℚ) ≤ (T : ℚ) := by
        rw [hTq]
        positivity
      exact div_le_self hT0 (by exact_mod_cast (by omega : (1 : Int) ≤ n))
    have hT2q : (T : ℚ) ≤ 9007199254740992 := by exact_mod_cast hT2
    have hk2 : (k : ℚ) + 1 ≤ (T : ℚ) := by
      rw [hTq]
      have : (k : ℚ) ≤ (n : ℚ) * (k : ℚ) := by
        have hn1 : (1 : ℚ) ≤ (n : ℚ) := by exact_mod_cast (by omega : (1 : Int) ≤ n)
        nlinarith
      linarith
    have hqlt : q < (k : ℚ) + 1 := by
      rw [hqk]
      have : (r : ℚ) / (n : ℚ) < 1 := by
        rw [div_lt_one hnq]; exact_mod_cast h1
      linarith
    have : q < 9007199254740992 := by linarith
    norm_num
    exact this
  obtain ⟨K, hK⟩ := grid_multiple q k 0 (by omega)
  simp only [zpow_zero, mul_one] at hK
  rw [roundF64_of_pos hqpos]
  have hx : (K : ℚ) + 1 / 2 < q / ulp q := by
    rw [lt_div_iff₀ hupos, add_mul, ← hK]
    linarith
  have hR : K + 1 ≤ roundHalfEven (q / ulp q) := by
    have hKfl : K ≤ ⌊q / ulp q⌋ := Int.le_floor.mpr (by linarith)
    by_cases hfl : K + 1 ≤ ⌊q / ulp q⌋
    · exact le_trans hfl (floor_le_roundHalfEven _)
    · have hfe : ⌊q / ulp q⌋ = K := by omega
      rw [roundHalfEven_of_half_lt (by rw [hfe]; linarith), hfe]
  have hRq : ((K : ℚ) + 1) ≤ (roundHalfEven (q / ulp q) : ℚ) := by exact_mod_cast hR
  have : ((K : ℚ) + 1) * ulp q ≤ (roundHalfEven (q / ulp q) : ℚ) * ulp q :=
    mul_le_mul_of_nonneg_right hRq (le_of_lt hupos)
  rw [add_mul, ← hK, one_mul] at this
  linarith

/-- Rounding does not pass an integer of at most 53 bits. -/
theorem roundF64_le_intCast {q : ℚ} {m : Int} (h : 0 < q) (hqm : q ≤ (m : ℚ))
    (hq : q < 9007199254740992) : roundF64 q ≤ (m : ℚ) := by
  have hlog : Int.log 2 q < 53 := by
    apply log_lt_of_lt h
    norm_num
    exact hq
  obtain ⟨M, hM⟩ := grid_multiple q m 0 (by omega)
  simp only [zpow_zero, mul_one] at hM
  rw [hM] at hqm ⊢
  exact roundF64_le_of_grid h hqm

/-- The rounded quotient of a dividend of at most 53 bits by a divisor above
`2^53` lies in `(0, 1]`. -/
theorem ceil_floatDiv_of_large {T n : Int} (hT1 : 1 ≤ T) (hT : T ≤ 9007199254740992)
    (hn : 9007199254740992 < n) (hn2 : n < 9223372036854775808) :
    ⌈floatDiv (toFloat64 T) (toFloat64 n)⌉ = 1 := by
  have hnq : (9007199254740992 : ℚ) < (n : ℚ) := by exact_mod_cast hn
  have hn2q : (n : ℚ) < 9223372036854775808 := by exact_mod_cast hn2
  have hnpos : (0 : ℚ) < (n : ℚ) := by linarith
  have hfn : (9007199254740992 : ℚ) ≤ toFloat64 n := by
    unfold toFloat64
    have hlog : Int.log 2 (n : ℚ) < 63 := by
      apply log_lt_of_lt hnpos
      norm_num
      exact hn2q
    obtain ⟨M, hM⟩ := grid_multiple (n : ℚ) 1 53 (by omega)
    have hM2 : (9007199254740992 : ℚ) = (M : ℚ) * ulp (n : ℚ) := by
      rw [← hM]; norm_num
    rw [hM2]
    apply le_roundF64_of_grid hnpos
    rw [← hM2]
    exact le_of_lt hnq
  rw [toFloat64_exact hT1 hT]
  have hTq1 : (1 : ℚ) ≤ (T : ℚ) := by exact_mod_cast hT1
  have hTq : (T : ℚ) ≤ 9007199254740992 := by exact_mod_cast hT
  have hfpos : (0 : ℚ) < toFloat64 n := by linarith
  have hqpos : (0 : ℚ) < (T : ℚ) / toFloat64 n := by positivity
  have hq1 : (T : ℚ) / toFloat64 n ≤ 1 := by
    rw [div_le_one hfpos]; linarith
  unfold floatDiv
  rw [Int.ceil_eq_iff]
  constructor
  · have := roundF64_pos hqpos
    simpa using this
  · have := roundF64_le_intCast (m := 1) hqpos (by simpa using hq1) (by linarith)
    simpa using this

/-- The rounded quotient of two integers of at most 53 bits has the ceiling of
the exact quotient. -/
theorem ceil_floatDiv_of_small {T n : Int} (hT1 : 1 ≤ T) (hT : T ≤ 9007199254740992)
    (hn : 0 < n) (hn2 : n ≤ 9007199254740992) :
    ⌈floatDiv (toFloat64 T) (toFloat64 n)⌉ = ceilDiv T n := by
  rw [toFloat64_exact hT1 hT, toFloat64_exact (by omega) hn2]
  unfold floatDiv
  have hnq : (0 : ℚ) < (n : ℚ) := by exact_mod_cast hn
  have hdiv : T = n * (T / n) + T % n := (Int.ediv_add_emod T n).symm
  have hr0 : 0 ≤ T % n := Int.emod_nonneg T (ne_of_gt hn)
  have hrn : T % n < n := Int.emod_lt_of_pos T hn
  have hk0 : 0 ≤ T / n := Int.ediv_nonneg (by omega) (le_of_lt hn)
  have hkT : T / n ≤ T := by
    have : (T / n) * 1 ≤ (T / n) * n := mul_le_mul_of_nonneg_left (by omega) hk0
    nlinarith
  have hTq : (T : ℚ) = (n : ℚ) * ((T / n : Int) : ℚ) + ((T % n : Int) : ℚ) := by
    exact_mod_cast hdiv
  have hqk : (T : ℚ) / (n : ℚ) = ((T / n : Int) : ℚ) + ((T % n : Int) : ℚ) / (n : ℚ) := by
    rw [hTq]
    field_simp
    ring
  rcases lt_or_le 0 (T % n) with hr | hr
  · -- a remainder: the quotient lies strictly between `k` and `k + 1`
    have hrq : (0 : ℚ) < ((T % n : Int) : ℚ) := by exact_mod_cast hr
    have hrnq : ((T % n : Int) : ℚ) < (n : ℚ) := by exact_mod_cast hrn
    have hfrac0 : (0 : ℚ) < ((T % n : Int) : ℚ) / (n : ℚ) := by positivity
    have hfrac1 : ((T % n : Int) : ℚ) / (n : ℚ) < 1 := by
      rw [div_lt_one hnq]; exact hrnq
    have hqpos : (0 : ℚ) < (T : ℚ) / (n : ℚ) := by
      have : (0 : ℚ) ≤ ((T / n : Int) : ℚ) := by exact_mod_cast hk0
      rw [hqk]; linarith
    have hk53 : T / n + 1 ≤ 9007199254740992 := by
      have : (T / n) * 1 ≤ (T / n) * n := mul_le_mul_of_nonneg_left (by omega) hk0
      nlinarith
    have hk53q : ((T / n : Int) : ℚ) + 1 ≤ 9007199254740992 := by exact_mod_cast hk53
    rw [ceilDiv_eq_of_rem hn hdiv hr (le_of_lt hrn), Int.ceil_eq_iff]
    constructor
    · rcases lt_or_le 0 (T / n) with hk | hk
      · have := floor_lt_roundF64_div hn hdiv (by omega) hr hrn hT
        simpa using this
      · have hk' : T / n = 0 := by omega
        have := roundF64_pos hqpos
        rw [hk']
        simpa using this
    · have := roundF64_le_intCast (m := T / n + 1) hqpos
        (by rw [hqk]; push_cast; linarith) (by rw [hqk]; linarith)
      simpa using this
  · -- no remainder: the quotient is the integer `k`
    have hr' : T % n = 0 := by omega
    rw [hr'] at hdiv hqk
    have hk1 : 1 ≤ T / n := by
      by_contra hc
      have : T / n = 0 := by omega
      rw [this] at hdiv
      omega
    have hq : (T : ℚ) / (n : ℚ) = ((T / n : Int) : ℚ) := by
      rw [hqk]; simp
    rw [hq, roundF64_intCast hk1 (by omega), Int.ceil_intCast]
    have e : T = n * (T / n - 1) + n := by
      have : n * (T / n - 1) + n = n * (T / n) := by ring
      rw [this]; omega
    rw [ceilDiv_eq_of_rem hn e hn (le_refl n)]
    ring

theorem ceilDiv_nonneg {T n : Int} (hT : 0 ≤ T) (hn : 0 < n) : 0 ≤ ceilDiv T n := by
  unfold ceilDiv
  exact Int.ediv_nonneg (by omega) (le_of_lt hn)

theorem ceilDiv_le {T n : Int} (hT : 1 ≤ T) (hn : 0 < n) : ceilDiv T n ≤ T := by
  unfold ceilDiv
  have h : T + n - 1 < (T + 1) * n := by nlinarith
  have := Int.ediv_lt_of_lt_mul hn h
  omega

/-- The expression of line 81 is the ceiling division when the total depth has
at most 53 bits. -/
theorem deriveBudget_eq_ceilDiv {T n : Int} (hT0 : 0 ≤ T) (hT : T ≤ 9007199254740992)
    (hn : 0 < n) (hn2 : n < 9223372036854775808) : deriveBudget T n = ceilDiv T n := by
  unfold deriveBudget floatCeil
  rcases lt_or_le 0 T with hT1 | hT1
  · have hc : ⌈floatDiv (toFloat64 T) (toFloat64 n)⌉ = ceilDiv T n := by
      rcases lt_or_le 9007199254740992 n with hl | hs
      · rw [ceil_floatDiv_of_large (by omega) hT hl hn2]
        have e : T = n * 0 + T := by ring
        rw [ceilDiv_eq_of_rem hn e hT1 (by omega)]
        ring
      · exact ceil_floatDiv_of_small (by omega) hT hn hs
    rw [hc]
    exact toInt64_intCast (ceilDiv_nonneg hT0 hn) (by have := ceilDiv_le (by omega : 1 ≤ T) hn; omega)
  · have hT' : T = 0 := by omega
    subst hT'
    have h0 : floatDiv (toFloat64 0) (toFloat64 n) = 0 := by
      unfold floatDiv toFloat64
      simp [roundF64_zero]
    rw [h0, ceilDiv_zero hn]
    simpa using toInt64_intCast (le_refl 0) (by norm_num)

/-- With `-r n` on a readable file whose depths sum up, `main` calls
`calculateRegions` with the derived budget. -/
theorem main_of_count (derive : Int → Int → Int) (fs : Bytes → Option (List Bytes))
    (stdin : List Bytes) (path : Bytes) (lines : List Bytes) (T n : Int) (hn : 0 < n)
    (hpath : path ≠ dash) (hfs : fs path = some lines) (hsum : sumColumnThree lines = some T) :
    main derive fs stdin ⟨false, n, 0, [path]⟩ = runRegions fs stdin [path] path (derive T n) := by
  unfold main
  simp only [List.length_singleton, List.headD_cons]
  rw [if_neg (by simp), if_neg (by simp), if_neg (by omega), if_neg (by omega),
    if_neg (by omega), if_pos True.intro, if_neg hpath, hfs]
  simp only
  rw [hsum]

/-- With `-b b` and a positive `b`, `main` calls `calculateRegions` with `b`. -/
theorem main_of_budget (derive : Int → Int → Int) (fs : Bytes → Option (List Bytes))
    (stdin : List Bytes) (path : Bytes) (b : Int) (hb : 0 < b) :
    main derive fs stdin ⟨false, 0, b, [path]⟩ = runRegions fs stdin [] path b := by
  unfold main
  simp only [List.length_singleton, List.headD_cons]
  rw [if_neg (by simp), if_neg (by simp), if_neg (by omega), if_neg (by omega),
    if_neg (by omega), if_neg (by omega)]

/-- The sources read before `calculateRegions` do not change what it prints or
how the run ends. -/
theorem runRegions_printed (fs : Bytes → Option (List Bytes)) (stdin : List Bytes)
    (o1 o2 : List Bytes) (path : Bytes) (b : Int) :
    (runRegions fs stdin o1 path b).printed = (runRegions fs stdin o2 path b).printed
      ∧ (runRegions fs stdin o1 path b).exitCode = (runRegions fs stdin o2 path b).exitCode := by
  unfold runRegions
  split_ifs
  · exact ⟨rfl, rfl⟩
  · split <;> exact ⟨rfl, rfl⟩

theorem deriveBudget_big : deriveBudget 9007199254740993 1 = 9007199254740992 := by
  have hq : (0 : ℚ) < 9007199254740993 := by norm_num
  have hlog : Int.log 2 (9007199254740993 : ℚ) = 53 := by
    apply le_antisymm
    · have := log_lt_of_lt (x := 54) hq (by norm_num)
      omega
    · exact le_log_of_le hq (by norm_num)
  have hulp : ulp (9007199254740993 : ℚ) = 2 := by
    unfold ulp
    rw [hlog]
    norm_num
  have hfloor : ⌊(9007199254740993 : ℚ) / 2⌋ = 4503599627370496 := by
    rw [Int.floor_eq_iff]
    constructor <;> norm_num
  have hT : toFloat64 9007199254740993 = 9007199254740992 := by
    unfold toFloat64
    push_cast
    rw [roundF64_of_pos hq, hulp]
    unfold roundHalfEven
    rw [hfloor]
    norm_num
  have h1 : toFloat64 1 = 1 := by
    simpa using toFloat64_exact (T := 1) (by norm_num) (by norm_num)
  unfold deriveBudget floatCeil floatDiv
  rw [hT, h1, div_one]
  have h2 : roundF64 (9007199254740992 : ℚ) = 9007199254740992 := by
    simpa using roundF64_intCast (T := 9007199254740992) (by norm_num) (by norm_num)
  rw [h2]
  have h3 : ((⌈(9007199254740992 : ℚ)⌉ : Int) : ℚ) = ((9007199254740992 : Int) : ℚ) := by
    have : ⌈(9007199254740992 : ℚ)⌉ = 9007199254740992 := by
      rw [Int.ceil_eq_iff]
      constructor <;> norm_num
    rw [this]
  rw [h3]
  exact toInt64_intCast (by norm_num) (by norm_num)

set_option maxRecDepth 8192 in
theorem sumColumnThree_sampleC9big : sumColumnThree sampleC9big = some 9007199254740993 := by
  decide

set_option maxRecDepth 8192 in
theorem runRegions_sampleC9big_count :
    (runRegions (fun _ => some sampleC9big) [] [chr1] chr1 9007199254740992).printed
      = [⟨chr1, 1, 1⟩] := by
  decide

set_option maxRecDepth 8192 in
theorem runRegions_sampleC9big_budget :
    (runRegions (fun _ => some sampleC9big) [] [] chr1 9007199254740993).printed = [] := by
  decide

/-- C9, as stated, fails above `2^53`: the file "chr1" with the one line
"chr1 TAB 1 TAB 9007199254740993" has the total depth `T = 2^53 + 1`, which
`float64(T)` rounds to `2^53`; with `-r 1` the derived budget is
9007199254740992 and not the ceiling division 9007199254740993, and the run
prints `chr1:1-1` where the run with `-b 9007199254740993` prints nothing. -/
theorem derived_budget_inexact :
    sumColumnThree sampleC9big = some 9007199254740993
      ∧ deriveBudget 9007199254740993 1 = 9007199254740992
      ∧ ceilDiv 9007199254740993 1 = 9007199254740993
      ∧ (main deriveBudget (fun _ => some sampleC9big) [] ⟨false, 1, 0, [chr1]⟩).printed
          = [⟨chr1, 1, 1⟩]
      ∧ (main deriveBudget (fun _ => some sampleC9big) []
          ⟨false, 0, 9007199254740993, [chr1]⟩).printed = [] := by
  have hs := sumColumnThree_sampleC9big
  refine ⟨hs, deriveBudget_big, by decide, ?_, ?_⟩
  · rw [main_of_count deriveBudget (fun _ => some sampleC9big) [] chr1 sampleC9big
      9007199254740993 1 (by norm_num) (by decide) rfl hs, deriveBudget_big]
    exact runRegions_sampleC9big_count
  · rw [main_of_budget deriveBudget (fun _ => some sampleC9big) [] chr1 9007199254740993
      (by norm_num)]
    exact runRegions_sampleC9big_budget

/-- C9 (amended). Region-count budget derivation in `main`: for every total
depth `T` with `0 ≤ T ≤ 2^53` returned by `sumColumnThree` and every requested
region count `n > 0` (an `int64`), the derived per-region budget
`int64(math.Ceil(float64(T)/float64(n)))` equals the exact ceiling division
`⌈T / n⌉`, `calculateRegions` is invoked with that value, and when the value is
positive the run prints the regions and ends with the status of the run that
was given the value with `-b`. -/
theorem budget_derivation (fs : Bytes → Option (List Bytes)) (stdin : List Bytes)
    (path : Bytes) (lines : List Bytes) (T n : Int) (hpath : path ≠ dash)
    (hfs : fs path = some lines) (hsum : sumColumnThree lines = some T) (hT0 : 0 ≤ T)
    (hT : T ≤ 9007199254740992) (hn : 0 < n) (hn2 : n < 9223372036854775808) :
    deriveBudget T n = ceilDiv T n
      ∧ main deriveBudget fs stdin ⟨false, n, 0, [path]⟩
          = afterRegions [path, path] (calculateRegions (ceilDiv T n) lines)
      ∧ (0 < ceilDiv T n →
          (main deriveBudget fs stdin ⟨false, n, 0, [path]⟩).printed
              = (main deriveBudget fs stdin ⟨false, 0, ceilDiv T n, [path]⟩).printed
            ∧ (main deriveBudget fs stdin ⟨false, n, 0, [path]⟩).exitCode
              = (main deriveBudget fs stdin ⟨false, 0, ceilDiv T n, [path]⟩).exitCode) := by
  have hd := deriveBudget_eq_ceilDiv hT0 hT hn hn2
  have hm := main_of_count deriveBudget fs stdin path lines T n hn hpath hfs hsum
  rw [hd] at hm
  refine ⟨hd, ?_, ?_⟩
  · rw [hm]
    unfold runRegions
    rw [if_neg hpath, hfs]
    rfl
  · intro hb
    rw [hm, main_of_budget deriveBudget fs stdin path (ceilDiv T n) hb]
    exact runRegions_printed fs stdin [path] [] path (ceilDiv T n)

/-- The file "chr1" of total depth 1000 with `-r 4`: the derived budget is
`⌈1000 / 4⌉ = 250`. -/
theorem budget_derivation_witness :
    (chr1 ≠ dash ∧ sumColumnThree sampleC9 = some 1000 ∧ (0 : Int) ≤ 1000
        ∧ (1000 : Int) ≤ 9007199254740992 ∧ (0 : Int) < 4 ∧ (4 : Int) < 9223372036854775808)
      ∧ ceilDiv 1000 4 = 250
      ∧ deriveBudget 1000 4 = ceilDiv 1000 4
      ∧ main deriveBudget (fun _ => some sampleC9) [] ⟨false, 4, 0, [chr1]⟩
          = afterRegions [chr1, chr1] (calculateRegions (ceilDiv 1000 4) sampleC9) :=
  ⟨⟨by decide, by decide, by decide, by decide, by decide, by decide⟩, by decide,
    (budget_derivation (fun _ => some sampleC9) [] chr1 sampleC9 1000 4 (by decide) rfl
      (by decide) (by decide) (by decide) (by decide) (by decide)).1,
    (budget_derivation (fun _ => some sampleC9) [] chr1 sampleC9 1000 4 (by decide) rfl
      (by decide) (by decide) (by decide) (by decide) (by decide)).2.1⟩

/-! ## C10: sumColumnThree sums the depth field -/

theorem splitTab_append (a rest : Bytes) (h : tab ∉ a) :
    splitTab (a ++ tab :: rest) = some (a, rest) := by
  induction a with
  | nil => simp [splitTab]
  | cons c cs ih =>
    have hc : c ≠ tab := fun e => h (by simp [e])
    have hcs : tab ∉ cs := fun e => h (List.mem_cons_of_mem _ e)
    simp [splitTab, hc, ih hcs]

theorem parseDepth_line (row : DepthRow) (h : row.WellFormed) :
    parseDepth row.line = some (parseNum row.depthField) := by
  unfold parseDepth DepthRow.line
  rw [splitTab_append _ _ h.1]
  simp only
  rw [splitTab_append _ _ h.2.1]

theorem decimalValue_nil : decimalValue [] = 0 := by
  simp [decimalValue]

theorem decimalValue_snoc (ds : Bytes) (c : Nat) :
    decimalValue (ds ++ [c]) = decimalValue ds * 10 + (c - 48) := by
  simp [decimalValue, Nat.ofDigits_cons]
  ring

theorem parseNum_snoc (ds : Bytes) (c : Nat) :
    parseNum (ds ++ [c]) = addDigit (parseNum ds) c := by
  simp [parseNum, List.foldl_append]

theorem addDigit_eq {v : Int} {c : Nat} (hv : 0 ≤ v) (hc : 48 ≤ c)
    (hfit : v * 10 + ((c - 48 : Nat) : Int) < 9223372036854775808) :
    addDigit v c = v * 10 + ((c - 48 : Nat) : Int) := by
  unfold addDigit wrap64
  omega

/-- The digit loop computes the number the digits denote, as long as that
number is an `int64`. -/
theorem parseNum_digits (ds : Bytes) :
    IsDigits ds → (decimalValue ds : Int) < 9223372036854775808 →
    parseNum ds = (decimalValue ds : Int) := by
  induction ds using List.reverseRecOn with
  | nil => intro _ _; simp [parseNum, decimalValue_nil]
  | append_singleton ds c ih =>
    intro hd hfit
    have hc := hd c (by simp)
    have hds : IsDigits ds := fun x hx => hd x (by simp [hx])
    rw [decimalValue_snoc] at hfit ⊢
    push_cast at hfit ⊢
    have hprev := ih hds (by omega)
    rw [parseNum_snoc, hprev]
    exact addDigit_eq (by omega) hc.1 (by omega)

theorem depthSum_cons (row : DepthRow) (rows : List DepthRow) :
    depthSum (row :: rows) = decimalValue row.depthField + depthSum rows := by
  simp [depthSum]

theorem sumLoop_rows (rows : List DepthRow) :
    ∀ (sum : Int), 0 ≤ sum → (∀ row ∈ rows, row.WellFormed) →
      sum + (depthSum rows : Int) < 9223372036854775808 →
      sumLoop sum (rows.map DepthRow.line) = some (sum + (depthSum rows : Int)) := by
  induction rows with
  | nil => intro sum _ _ _; simp [sumLoop, depthSum]
  | cons row rows ih =>
    intro sum h0 hw hfit
    have hrow := hw row (List.mem_cons_self _ _)
    rw [depthSum_cons] at hfit ⊢
    push_cast at hfit ⊢
    have hv : parseNum row.depthField = (decimalValue row.depthField : Int) :=
      parseNum_digits _ hrow.2.2 (by omega)
    have hwr : wrap64 (sum + (decimalValue row.depthField : Int))
        = sum + (decimalValue row.depthField : Int) := wrap64_eq (by omega) (by omega)
    simp only [List.map_cons, sumLoop, parseDepth_line row hrow, hv, hwr]
    rw [ih _ (by omega) (fun x hx => hw x (List.mem_cons_of_mem _ hx)) (by omega)]
    congr 1
    ring

/-- C10. `sumColumnThree` returns the arithmetic sum of the depth field: on
lines of the form `name TAB position TAB depth`, where name and position hold
no tab and depth is a string of decimal digits, with a total that is an
`int64`, it returns the sum of the numbers in the third fields; on the empty
input it returns 0. -/
theorem sumColumnThree_sum (rows : List DepthRow) (hw : ∀ row ∈ rows, row.WellFormed)
    (hfit : (depthSum rows : Int) < 9223372036854775808) :
    sumColumnThree (rows.map DepthRow.line) = some (depthSum rows : Int)
      ∧ sumColumnThree [] = some 0 := by
  refine ⟨?_, rfl⟩
  have := sumLoop_rows rows 0 (le_refl _) hw (by omega)
  simpa [sumColumnThree] using this

/-- The lines "chr1 TAB 1 TAB 12" and "chr1 TAB 2 TAB 30" sum to 42. -/
theorem sumColumnThree_sum_witness :
    ((∀ row ∈ sampleC10, row.WellFormed) ∧ (depthSum sampleC10 : Int) < 9223372036854775808)
      ∧ sumColumnThree (sampleC10.map DepthRow.line) = some 42 :=
  ⟨⟨by decide, by decide⟩, (sumColumnThree_sum sampleC10 (by decide) (by decide)).1⟩

/-! ## C11: parsing inverts formatting -/

theorem decimal_isDigits (n : Nat) : IsDigits (decimal n) := by
  unfold decimal
  split_ifs with h
  · intro c hc
    simp only [List.mem_singleton] at hc
    subst hc
    exact ⟨le_refl _, by decide⟩
  · intro c hc
    simp only [List.mem_map, List.mem_reverse] at hc
    obtain ⟨d, hd, rfl⟩ := hc
    have := Nat.digits_lt_base (by decide : 1 < 10) hd
    omega

theorem decimalValue_decimal (n : Nat) : decimalValue (decimal n) = n := by
  unfold decimal decimalValue
  split_ifs with h
  · subst h; simp
  · rw [← List.map_reverse, List.reverse_reverse, List.map_map]
    have e : ((fun c => c - 48) ∘ fun d => d + 48) = (id : Nat → Nat) := by
      funext d; simp
    rw [e, List.map_id, Nat.ofDigits_digits]

theorem tab_not_mem_of_isDigits {ds : Bytes} (h : IsDigits ds) : tab ∉ ds := by
  intro hm
  have := h tab hm
  simp only [tab] at this
  omega

theorem parseNum_decimal (n : Nat) (h : (n : Int) < 9223372036854775808) :
    parseNum (decimal n) = (n : Int) := by
  have := parseNum_digits (decimal n) (decimal_isDigits n) (by rw [decimalValue_decimal]; exact h)
  rw [this, decimalValue_decimal]

/-- C11. Line parsing in `calculateRegions` is the inverse of formatting: for a
name without a tab byte and natural numbers `pos` and `depth` in the `int64`
range, the bytes `name TAB decimal(pos) TAB decimal(depth)` parse to
`(name, pos, depth)`. -/
theorem parse_format (name : Bytes) (pos depth : Nat) (hn : tab ∉ name)
    (hp : (pos : Int) < 9223372036854775808) (hd : (depth : Int) < 9223372036854775808) :
    parseLine (formatLine name pos depth) = some ⟨name, (pos : Int), (depth : Int)⟩ := by
  unfold parseLine formatLine
  rw [splitTab_append _ _ hn]
  simp only
  rw [splitTab_append _ _ (tab_not_mem_of_isDigits (decimal_isDigits pos))]
  simp only
  rw [parseNum_decimal pos hp, parseNum_decimal depth hd]

/-- The line "chr1 TAB 12 TAB 30" parses to `(chr1, 12, 30)`. -/
theorem parse_format_witness :
    (tab ∉ chr1 ∧ ((12 : Nat) : Int) < 9223372036854775808
      ∧ ((30 : Nat) : Int) < 9223372036854775808)
      ∧ formatLine chr1 12 30 = chr1 ++ [9, 49, 50, 9, 51, 48]
      ∧ parseLine (formatLine chr1 12 30) = some ⟨chr1, 12, 30⟩ :=
  ⟨⟨by decide, by decide, by decide⟩, by norm_num [formatLine, decimal, tab, chr1],
    parse_format chr1 12 30 (by decide) (by decide) (by decide)⟩

/-! ## C12: configuration validation in main -/

theorem runRegions_opened (fs : Bytes → Option (List Bytes)) (stdin : List Bytes)
    (opened : List Bytes) (path : Bytes) (bp : Int) :
    (runRegions fs stdin opened path bp).opened = opened ++ [path] := by
  unfold runRegions
  split_ifs
  · rfl
  · split <;> rfl

/-- A configuration that is not valid ends in `exitHelp`. -/
theorem main_of_not_valid (derive : Int → Int → Int) (fs : Bytes → Option (List Bytes))
    (stdin : List Bytes) (c : Config) (h : ¬ c.Valid) :
    main derive fs stdin c = ⟨if c.help then 0 else 1, [], []⟩ := by
  unfold main
  simp only
  split_ifs with h1 h2 h3 h4 h5 h6 h7
  · simp [exitHelp]
  · simp [exitHelp]
  · simp [exitHelp]
  · simp [exitHelp]
  · simp [exitHelp]
  · simp [exitHelp]
  · exfalso
    apply h
    have hn : c.numRegions ≠ 0 := fun e => h3 ⟨e, h6⟩
    exact ⟨by simpa using h1, not_not.mp h2, Or.inl ⟨hn, h6⟩, by omega, by omega, fun _ => h7⟩
  · exfalso
    apply h
    have hn : c.numRegions = 0 := by
      by_contra e; exact h4 ⟨e, h6⟩
    exact ⟨by simpa using h1, not_not.mp h2, Or.inr ⟨hn, h6⟩, by omega, by omega,
      fun e => absurd hn e⟩

/-- A valid configuration reaches `sumColumnThree` or `calculateRegions`, which
open the depth source. -/
theorem main_of_valid (derive : Int → Int → Int) (fs : Bytes → Option (List Bytes))
    (stdin : List Bytes) (c : Config) (h : c.Valid) :
    (main derive fs stdin c).opened ≠ [] := by
  obtain ⟨h1, h2, h3, h4, h5, h6⟩ := h
  unfold main
  simp only
  rw [if_neg (by simp [h1]), if_neg (not_not.mpr h2), if_neg (by omega), if_neg (by omega),
    if_neg (by omega)]
  rcases h3 with ⟨hn, hb⟩ | ⟨hn, hb⟩
  · rw [if_pos hb, if_neg (h6 hn)]
    cases fs (c.args.headD []) with
    | none => simp
    | some lines =>
      simp only
      cases sumColumnThree lines with
      | none => simp
      | some t => simp [runRegions_opened]
  · rw [if_neg hb]
    simp [runRegions_opened]

/-- C12. Configuration validation in `main`: a depth source is read
(`sumColumnThree` or `calculateRegions` is reached) if and only if help was not
requested, exactly one positional argument is given, exactly one of `-r` and
`-b` is non-zero, neither is negative, and the source is not "-" when the
region count is used; in every other case the program exits without reading a
depth source and without printing a region. -/
theorem main_validation (derive : Int → Int → Int) (fs : Bytes → Option (List Bytes))
    (stdin : List Bytes) (c : Config) :
    ((main derive fs stdin c).opened ≠ [] ↔ c.Valid)
      ∧ (¬ c.Valid → (main derive fs stdin c).opened = []
          ∧ (main derive fs stdin c).printed = []
          ∧ (main derive fs stdin c).exitCode = if c.help then 0 else 1) := by
  constructor
  · constructor
    · intro hne
      by_contra hv
      rw [main_of_not_valid derive fs stdin c hv] at hne
      exact hne rfl
    · exact main_of_valid derive fs stdin c
  · intro hv
    rw [main_of_not_valid derive fs stdin c hv]
    exact ⟨rfl, rfl, rfl⟩

/-- With `-b 100` and the file "chr1" holding one line, `main` reads the
file. -/
theorem main_validation_witness :
    (⟨false, 0, 100, [chr1]⟩ : Config).Valid
      ∧ (main ceilDiv (fun _ => some sampleC8) [] ⟨false, 0, 100, [chr1]⟩).opened ≠ [] :=
  ⟨by decide, (main_validation ceilDiv (fun _ => some sampleC8) [] ⟨false, 0, 100, [chr1]⟩).1.mpr
    (by decide)⟩

/-! ## C13: a single-record sequence closed by a sequence change -/

/-- C13, as stated, fails for a sequence with an empty name: on the lines
"TAB 5 TAB 1" and "chr1 TAB 1 TAB 1" with a budget of 100 the sequence change
finds `prevSeq` empty, takes the record for the first one, and prints
nothing. -/
theorem single_record_empty_name :
    sampleC13.map parseLine = [some ⟨[], 5, 1⟩, some ⟨chr1, 1, 1⟩]
      ∧ calculateRegions 100 sampleC13 = ⟨[], false⟩
      ∧ (⟨[], 5, 5⟩ : Region) ∉ (calculateRegions 100 sampleC13).printed := by
  decide

theorem loop_prevSeq_ne {bp : Int} {pre : List Record} {a : Record} (hne : a.seq ≠ [])
    (hfirst : ∀ l ∈ pre.getLast?, l.seq ≠ a.seq) :
    (loop bp State.init pre).1.prevSeq ≠ a.seq := by
  rcases List.eq_nil_or_concat pre with rfl | ⟨xs, l, rfl⟩
  · exact fun h => hne h.symm
  · rw [List.concat_eq_append] at *
    rw [loop_prevSeq_snoc]
    exact hfirst l (by simp)

/-- C13 (amended). When a sequence with a non-empty name consists of exactly
one record at position `p` (the record before it, if any, belongs to another
sequence) and is immediately followed by a record of a different sequence,
`calculateRegions` emits the region `(that sequence, p, p)`, whatever the depth
of the record and the budget. -/
theorem single_record_sequence (bp : Int) (pre : List Record) (a b : Record)
    (post : List Record) (hne : a.seq ≠ []) (hfirst : ∀ l ∈ pre.getLast?, l.seq ≠ a.seq)
    (hab : b.seq ≠ a.seq) :
    (⟨a.seq, a.pos, a.pos⟩ : Region) ∈ regions bp (pre ++ a :: b :: post) := by
  have hs : (loop bp State.init pre).1.prevSeq ≠ a.seq := loop_prevSeq_ne hne hfirst
  have hsb : startBefore (loop bp State.init pre).1 a = a.pos := by
    unfold startBefore; rw [if_pos hs]
  unfold regions
  simp only
  rw [loop_append, loop_cons, loop_cons]
  simp only [List.mem_append]
  by_cases ho : Overruns bp (loop bp State.init pre).1 a
  · left; right; left
    rw [step_out, if_pos ho, hsb]
    simp
  · left; right; right; left
    rw [step_out, step_prevSeq, step_startPos, if_neg ho, hsb, step_lastPos,
      if_pos ⟨fun h => hab h.symm, hne⟩]
    simp

/-- The lines of "chr1" at position 7 and "chr2" at position 1 under a budget
of 100: `chr1:7-7` is printed. -/
theorem single_record_sequence_witness :
    (chr1 ≠ [] ∧ (∀ l ∈ ([] : List Record).getLast?, l.seq ≠ chr1) ∧ chr2 ≠ chr1)
      ∧ (⟨chr1, 7, 7⟩ : Region) ∈ regions 100 ([] ++ ⟨chr1, 7, 1⟩ :: ⟨chr2, 1, 1⟩ :: [])
      ∧ regions 100 [⟨chr1, 7, 1⟩, ⟨chr2, 1, 1⟩] = [⟨chr1, 7, 7⟩] :=
  ⟨⟨by decide, by decide, by decide⟩,
    single_record_sequence 100 [] ⟨chr1, 7, 1⟩ ⟨chr2, 1, 1⟩ [] (by decide) (by decide)
      (by decide), by decide⟩

/-! ## C14: regions are emitted as the stream is consumed -/

/-- C14. Streaming prefix property: the regions printed while the scanner loop
consumes `xs` are a prefix of the regions printed while it consumes `xs ++ ys`,
and hence of the whole output for `xs ++ ys`, flush included. -/
theorem streaming_prefix (bp : Int) (xs ys : List Record) :
    (loop bp State.init xs).2 <+: (loop bp State.init (xs ++ ys)).2
      ∧ (loop bp State.init xs).2 <+: regions bp (xs ++ ys) := by
  constructor
  · rw [loop_append]
    exact List.prefix_append _ _
  · unfold regions
    simp only
    rw [loop_append, List.append_assoc]
    exact List.prefix_append _ _

/-! ## C15: indexing safety of the line parser -/

theorem splitTab_none_iff (b : Bytes) : splitTab b = none ↔ b.count tab = 0 := by
  induction b with
  | nil => simp [splitTab]
  | cons c cs ih =>
    by_cases hc : c = tab
    · subst hc; simp [splitTab]
    · have hc' : ¬ (tab = c) := fun e => hc e.symm
      simp only [splitTab, hc, if_false, List.count_cons, beq_iff_eq, hc', add_zero]
      rw [← ih]
      cases splitTab cs <;> simp

theorem splitTab_count {b field rest : Bytes} (h : splitTab b = some (field, rest)) :
    b.count tab = rest.count tab + 1 := by
  induction b generalizing field with
  | nil => simp [splitTab] at h
  | cons c cs ih =>
    by_cases hc : c = tab
    · subst hc
      simp only [splitTab, if_true, Option.some.injEq, Prod.mk.injEq] at h
      simp [h.2]
    · have hc' : ¬ (tab = c) := fun e => hc e.symm
      simp only [splitTab, hc, if_false] at h
      cases hs : splitTab cs with
      | none => simp [hs] at h
      | some p =>
        obtain ⟨f, r⟩ := p
        simp only [hs, Option.some.injEq, Prod.mk.injEq] at h
        obtain ⟨-, rfl⟩ := h
        have := ih hs
        simp only [List.count_cons, beq_iff_eq, hc, if_false, add_zero]
        rw [this]

theorem parseLine_isSome_iff (b : Bytes) : (parseLine b).isSome ↔ 2 ≤ b.count tab := by
  unfold parseLine
  cases h1 : splitTab b with
  | none =>
    have := (splitTab_none_iff b).mp h1
    simp [this]
  | some p =>
    obtain ⟨f, rest⟩ := p
    have c1 := splitTab_count h1
    simp only
    cases h2 : splitTab rest with
    | none =>
      have := (splitTab_none_iff rest).mp h2
      simp only [Option.isSome_none, Bool.false_eq_true, false_iff]
      omega
    | some q =>
      obtain ⟨f2, rest2⟩ := q
      have c2 := splitTab_count h2
      simp only [Option.isSome_some, true_iff]
      omega

theorem parseDepth_eq (b : Bytes) : parseDepth b = (parseLine b).map Record.depth := by
  unfold parseDepth parseLine
  cases splitTab b with
  | none => rfl
  | some p =>
    obtain ⟨f, rest⟩ := p
    simp only
    cases splitTab rest with
    | none => rfl
    | some q => rfl

/-- C15. Indexing safety of the line parser: the parsing loops of
`calculateRegions` and of `sumColumnThree` stay inside the line exactly when
the line holds at least two tab bytes, whatever the other bytes are; on a line
with fewer than two tab bytes, the empty line included, they index past the
end. -/
theorem parser_index_safety (b : Bytes) :
    ((parseLine b).isSome ↔ 2 ≤ b.count tab)
      ∧ ((parseDepth b).isSome ↔ 2 ≤ b.count tab)
      ∧ (parseLine b = none ↔ b.count tab < 2)
      ∧ (parseDepth b = none ↔ b.count tab < 2)
      ∧ parseLine [] = none ∧ parseDepth [] = none := by
  have h1 := parseLine_isSome_iff b
  have h2 : (parseDepth b).isSome ↔ 2 ≤ b.count tab := by
    rw [parseDepth_eq, Option.isSome_map']
    exact h1
  refine ⟨h1, h2, ?_, ?_, rfl, rfl⟩
  · rw [← Option.not_isSome_iff_eq_none, h1]; omega
  · rw [← Option.not_isSome_iff_eq_none, h2]; omega

/-! ## C16: an upper bound on the number of regions -/

theorem runCount_cons_cons (a b : Bytes) (l : List Bytes) :
    runCount (a :: b :: l) = (if b = a then 0 else 1) + runCount (b :: l) := by
  simp [runCount]

theorem closings_cons (p a : Bytes) (l : List Bytes) :
    closings p (a :: l) = (if p ≠ a ∧ p ≠ [] then 1 else 0) + closings a l := rfl

theorem closings_lt_runCount (l : List Bytes) :
    ∀ a : Bytes, closings a l + 1 ≤ runCount (a :: l) := by
  induction l with
  | nil => intro a; simp [closings, runCount]
  | cons b l ih =>
    intro a
    have h := ih b
    rw [runCount_cons_cons, closings_cons]
    by_cases hab : a = b
    · subst hab
      simp only [ne_eq, not_true_eq_false, false_and, if_false, if_true]
      omega
    · have hba : ¬ (b = a) := fun e => hab e.symm
      rw [if_neg hba]
      split_ifs <;> omega

theorem flush_length_le (s : State) : (flush s).length ≤ 1 := by
  unfold flush; split_ifs <;> simp

theorem step_out_length (bp : Int) (s : State) (r : Record) :
    (step bp s r).2.length
      = (if s.prevSeq ≠ r.seq ∧ s.prevSeq ≠ [] then 1 else 0)
        + (if Overruns bp s r then 1 else 0) := by
  rw [step_out]
  split_ifs <;> simp

/-- The regions printed by the scanner loop: `k` by the overrun block, each
standing for a depth of more than the budget, the others by the
sequence-change block. -/
theorem loop_count (bp : Int) (ys : List Record) :
    ∀ (s : State), 0 ≤ s.bpInRegion → (∀ y ∈ ys, 0 ≤ y.depth) →
      s.bpInRegion + totalDepth ys < 9223372036854775808 →
      ∃ k : Nat, (loop bp s ys).2.length ≤ k + closings s.prevSeq (ys.map Record.seq)
        ∧ (k : Int) * (bp + 1) + (loop bp s ys).1.bpInRegion ≤ s.bpInRegion + totalDepth ys
        ∧ 0 ≤ (loop bp s ys).1.bpInRegion := by
  induction ys with
  | nil =>
    intro s h0 _ _
    exact ⟨0, by simp [loop_nil], by simp [loop_nil, totalDepth_nil], by simpa [loop_nil] using h0⟩
  | cons r rs ih =>
    intro s h0 hd hfit
    have hr : 0 ≤ r.depth := hd r (List.mem_cons_self _ _)
    have hd' : ∀ y ∈ rs, 0 ≤ y.depth := fun y hy => hd y (List.mem_cons_of_mem _ hy)
    have hrs : 0 ≤ totalDepth rs := totalDepth_nonneg hd'
    rw [totalDepth_cons] at hfit
    have hb1 : 0 ≤ bpBefore s r ∧ bpBefore s r ≤ s.bpInRegion := by
      unfold bpBefore; split_ifs <;> omega
    have hw : wrap64 (bpBefore s r + r.depth) = bpBefore s r + r.depth :=
      wrap64_eq (by omega) (by omega)
    rw [loop_cons, totalDepth_cons]
    simp only [List.length_append, List.map_cons, closings]
    rw [step_out_length]
    by_cases ho : Overruns bp s r
    · have hs1 : (step bp s r).1.bpInRegion = 0 := by rw [step_bpInRegion, if_pos ho]
      obtain ⟨k, hk1, hk2, hk3⟩ := ih (step bp s r).1 (by omega) hd' (by omega)
      rw [step_prevSeq] at hk1
      rw [hs1] at hk2
      have hgt : bp + 1 ≤ bpBefore s r + r.depth := by
        unfold Overruns at ho; rw [hw] at ho; omega
      refine ⟨k + 1, ?_, ?_, hk3⟩
      · rw [if_pos ho]; omega
      · push_cast
        linarith
    · have hs1 : (step bp s r).1.bpInRegion = bpBefore s r + r.depth := by
        rw [step_bpInRegion, if_neg ho, hw]
      obtain ⟨k, hk1, hk2, hk3⟩ := ih (step bp s r).1 (by omega) hd' (by omega)
      rw [step_prevSeq] at hk1
      rw [hs1] at hk2
      refine ⟨k, ?_, ?_, hk3⟩
      · rw [if_neg ho]; omega
      · linarith

theorem closings_init (names : List Bytes) :
    closings State.init.prevSeq names + (if names = [] then 0 else 1) ≤ runCount names := by
  cases names with
  | nil => simp [closings, runCount]
  | cons a l =>
    have := closings_lt_runCount l a
    rw [closings_cons]
    have h0 : State.init.prevSeq = [] := rfl
    rw [if_neg (fun h => h.2 h0), if_neg (List.cons_ne_nil _ _)]
    omega

theorem ceilDiv_mul_ge {t n : Int} (hn : 0 < n) : t ≤ n * ceilDiv t n := by
  unfold ceilDiv
  have h1 := Int.emod_add_ediv (t + n - 1) n
  have h2 := Int.emod_lt_of_pos (t + n - 1) hn
  have h3 := Int.emod_nonneg (t + n - 1) (ne_of_gt hn)
  linarith

/-- C16. Upper bound on the number of regions: for a budget `bp ≥ 0` and an
input with non-negative depths whose total `T` is an `int64`, made of `s`
runs, `calculateRegions` emits at most `s + ⌊T / (bp + 1)⌋` regions;
consequently, with `bp = ⌈T / n⌉` for a requested region count `n > 0`, fewer
than `s + n` regions are emitted. -/
theorem region_count_bound (bp : Int) (recs : List Record) (hb : 0 ≤ bp) (hd : DepthsFit recs) :
    ((regions bp recs).length : Int)
        ≤ (runCount (recs.map Record.seq) : Int) + totalDepth recs / (bp + 1)
      ∧ ∀ n : Int, 0 < n → bp = ceilDiv (totalDepth recs) n →
          ((regions bp recs).length : Int) < (runCount (recs.map Record.seq) : Int) + n := by
  obtain ⟨k, hk1, hk2, hk3⟩ := loop_count bp recs State.init (le_refl _) hd.1
    (by have := hd.2; simp only [State.init]; omega)
  have hlen : (regions bp recs).length ≤ k + runCount (recs.map Record.seq) := by
    unfold regions
    simp only [List.length_append]
    have h1 := closings_init (recs.map Record.seq)
    have h2 := flush_length_le (loop bp State.init recs).1
    rcases List.eq_nil_or_concat recs with rfl | ⟨xs, l, rfl⟩
    · simp [loop_nil, flush, State.init]
    · have hne : ¬ (List.map Record.seq (xs.concat l) = []) := by simp
      rw [if_neg hne] at h1
      omega
  have hkT : (k : Int) * (bp + 1) ≤ totalDepth recs := by
    have h0 : State.init.bpInRegion = 0 := rfl
    rw [h0] at hk2
    linarith
  have hkdiv : (k : Int) ≤ totalDepth recs / (bp + 1) :=
    (Int.le_ediv_iff_mul_le (by omega)).mpr hkT
  have hlen' : ((regions bp recs).length : Int) ≤ (k : Int) + runCount (recs.map Record.seq) := by
    exact_mod_cast hlen
  refine ⟨by linarith, ?_⟩
  intro n hn hbp
  have h1 : totalDepth recs ≤ n * bp := by rw [hbp]; exact ceilDiv_mul_ge hn
  have hkn : (k : Int) < n := by
    by_contra hge
    have hge' : n ≤ (k : Int) := by omega
    have : n * (bp + 1) ≤ (k : Int) * (bp + 1) :=
      mul_le_mul_of_nonneg_right hge' (by omega)
    nlinarith
  linarith

/-- Seven records of depth 3 on two runs, total 21, budget 7: at most
2 + 21 / 8 = 4 regions; the budget is `⌈21 / 3⌉`, and fewer than 2 + 3 regions
are emitted. -/
theorem region_count_bound_witness :
    ((0 : Int) ≤ 7 ∧ DepthsFit sampleC16)
      ∧ ((regions 7 sampleC16).length : Int)
          ≤ (runCount (sampleC16.map Record.seq) : Int) + totalDepth sampleC16 / (7 + 1)
      ∧ regions 7 sampleC16 = [⟨chr1, 1, 3⟩, ⟨chr1, 4, 4⟩, ⟨chr2, 1, 3⟩]
      ∧ runCount (sampleC16.map Record.seq) = 2 ∧ totalDepth sampleC16 = 21
      ∧ ceilDiv 21 3 = 7 :=
  ⟨⟨by decide, by decide⟩, (region_count_bound 7 sampleC16 (by decide) (by decide)).1,
    by decide, by decide, by decide, by decide⟩

/-! ## C17: closed form on a uniform stream -/

theorem uniform_succ (name : Bytes) (j : Nat) :
    uniform name (j + 1) = uniform name j ++ [⟨name, (j : Int) + 1, 1⟩] := by
  simp [uniform, List.range_succ]

theorem succ_div_mod_full {m j : Nat} (h : j % m + 1 = m) :
    (j + 1) / m = j / m + 1 ∧ (j + 1) % m = 0 := by
  have hm : 0 < m := by omega
  have hj := Nat.div_add_mod j m
  have e : j + 1 = m * (j / m + 1) := by
    rw [Nat.mul_add, Nat.mul_one]; omega
  rw [e]
  exact ⟨Nat.mul_div_cancel_left _ hm, Nat.mul_mod_right _ _⟩

theorem succ_div_mod_part {m j : Nat} (h : j % m + 1 < m) :
    (j + 1) / m = j / m ∧ (j + 1) % m = j % m + 1 := by
  have hm : 0 < m := by omega
  have hj := Nat.div_add_mod j m
  have e : j + 1 = j % m + 1 + m * (j / m) := by omega
  rw [e]
  constructor
  · rw [Nat.add_mul_div_left _ _ hm, Nat.div_eq_of_lt h, Nat.zero_add]
  · rw [Nat.add_mul_mod_self_left, Nat.mod_eq_of_lt h]


/-- The state and the output after the positions `1 .. j` of a uniform
stream. -/
theorem uniform_loop (name : Bytes) (B : Nat) (hB : (B : Int) < 9223372036854775808) :
    ∀ j : Nat, (j : Int) + 1 < 9223372036854775808 →
      loop (B : Int) (uniformStart name) (uniform name j)
        = (⟨name, ((j / (B + 1) : Nat) : Int) * ((B : Int) + 1) + 1, (j : Int),
            ((j % (B + 1) : Nat) : Int)⟩,
          (List.range (j / (B + 1))).map (fullRegion name B)) := by
  intro j
  induction j with
  | zero =>
    intro _
    simp [uniform, loop_nil, uniformStart]
  | succ j ih =>
    intro hj
    have hj' : (j : Int) + 1 < 9223372036854775808 := by omega
    have hmod : j % (B + 1) < B + 1 := Nat.mod_lt _ (Nat.succ_pos _)
    have hmodle : j % (B + 1) ≤ j := Nat.mod_le _ _
    have hdm := Nat.div_add_mod j (B + 1)
    rw [uniform_succ, loop_append, ih hj', loop_cons, loop_nil]
    simp only [List.append_nil]
    generalize hs : (⟨name, ((j / (B + 1) : Nat) : Int) * ((B : Int) + 1) + 1, (j : Int),
            ((j % (B + 1) : Nat) : Int)⟩ : State) = s
    have hs1 : s.prevSeq = name := by rw [← hs]
    have hs2 : s.startPos = ((j / (B + 1) : Nat) : Int) * ((B : Int) + 1) + 1 := by rw [← hs]
    have hs4 : s.bpInRegion = ((j % (B + 1) : Nat) : Int) := by rw [← hs]
    generalize hr : (⟨name, (j : Int) + 1, 1⟩ : Record) = r
    have hr1 : r.seq = name := by rw [← hr]
    have hr2 : r.pos = (j : Int) + 1 := by rw [← hr]
    have hr3 : r.depth = 1 := by rw [← hr]
    have hsame : s.prevSeq = r.seq := by rw [hs1, hr1]
    have hbb : bpBefore s r = ((j % (B + 1) : Nat) : Int) := by
      unfold bpBefore
      rw [if_neg (fun h => h.1 hsame), hs4]
    have hsb : startBefore s r = ((j / (B + 1) : Nat) : Int) * ((B : Int) + 1) + 1 := by
      unfold startBefore
      rw [if_neg (not_not.mpr hsame), hs2]
    have hw : wrap64 (bpBefore s r + r.depth) = ((j % (B + 1) : Nat) : Int) + 1 := by
      rw [hbb, hr3]
      exact wrap64_eq (by omega) (by omega)
    have hwp : wrap64 (r.pos + 1) = (j : Int) + 2 := by
      rw [hr2]
      rw [wrap64_eq (by omega) (by simp only [Nat.cast_add, Nat.cast_one] at hj; omega)]
      ring
    by_cases hfull : j % (B + 1) + 1 = B + 1
    · obtain ⟨hd, hm⟩ := succ_div_mod_full hfull
      have ho : Overruns (B : Int) s r := by
        unfold Overruns
        rw [hw]
        have : ((j % (B + 1) : Nat) : Int) = (B : Int) := by omega
        omega
      have hprod : (((j / (B + 1) : Nat) : Int) + 1) * ((B : Int) + 1) = (j : Int) + 1 := by
        have : (((j / (B + 1) + 1) * (B + 1) : Nat) : Int) = ((j + 1 : Nat) : Int) := by
          congr 1
          rw [Nat.add_mul, Nat.one_mul, Nat.mul_comm]
          omega
        simp only [Nat.cast_add, Nat.cast_mul, Nat.cast_one] at this
        linarith
      apply Prod.ext
      · apply State.ext_fields
        · rw [step_prevSeq, hr1]
        · rw [step_startPos, if_pos ho, hwp, hd]
          simp only [Nat.cast_add, Nat.cast_one]
          linarith
        · rw [step_lastPos, hr2]; simp only [Nat.cast_add, Nat.cast_one]
        · rw [step_bpInRegion, if_pos ho, hm]; rfl
      · simp only
        rw [step_out, if_neg (fun h => h.1 hsame), if_pos ho, hd, List.range_succ,
          List.map_append, hsb, hr1, hr2]
        simp only [List.nil_append, List.map_cons, List.map_nil, fullRegion]
        rw [hprod]
    · have hpart : j % (B + 1) + 1 < B + 1 := by omega
      obtain ⟨hd, hm⟩ := succ_div_mod_part hpart
      have ho : ¬ Overruns (B : Int) s r := by
        unfold Overruns
        rw [hw]
        omega
      apply Prod.ext
      · apply State.ext_fields
        · rw [step_prevSeq, hr1]
        · rw [step_startPos, if_neg ho, hsb, hd]
        · rw [step_lastPos, hr2]; simp only [Nat.cast_add, Nat.cast_one]
        · rw [step_bpInRegion, if_neg ho, hw, hm]; simp only [Nat.cast_add, Nat.cast_one]
      · simp only
        rw [step_out, if_neg (fun h => h.1 hsame), if_neg ho, hd]
        simp

/-- The first record of a sequence with a non-empty name finds the initial
state like a state with an open region starting at its position. -/
theorem loop_init_uniform (bp : Int) (name : Bytes) (hn : name ≠ []) (N : Nat) :
    loop bp State.init (uniform name N) = loop bp (uniformStart name) (uniform name N)
      ∨ N = 0 := by
  cases N with
  | zero => right; rfl
  | succ k =>
    left
    have e : uniform name (k + 1)
        = ⟨name, 1, 1⟩ ::
          (List.range k).map ((fun i : Nat => (⟨name, (i : Int) + 1, 1⟩ : Record)) ∘ Nat.succ) := by
      unfold uniform
      rw [List.range_succ_eq_map, List.map_cons, List.map_map]
      rfl
    have hn' : ¬ ([] = name) := fun h => hn h.symm
    have hstep : step bp State.init ⟨name, 1, 1⟩ = step bp (uniformStart name) ⟨name, 1, 1⟩ := by
      simp [step, seqChange, overrun, State.init, uniformStart, hn']
    rw [e, loop_cons, loop_cons, hstep]

/-- C17. Closed form on a uniform stream: for a single sequence with a
non-empty name and records at the positions `1 .. N`, each of depth 1, and a
budget `B ≥ 0` (`B` and `N + 1` being `int64` values), `calculateRegions` emits
exactly the regions `[k (B + 1) + 1, (k + 1) (B + 1)]` for
`k = 0 .. ⌊N / (B + 1)⌋ - 1`, in that order, followed by the region
`[⌊N / (B + 1)⌋ (B + 1) + 1, N]` if and only if `N mod (B + 1) ≥ 2`; when
`N mod (B + 1) = 1` the position `N` lies in no emitted region. -/
theorem uniform_closed_form (name : Bytes) (B N : Nat) (hn : name ≠ [])
    (hB : (B : Int) < 9223372036854775808) (hN : (N : Int) + 1 < 9223372036854775808) :
    regions (B : Int) (uniform name N) = uniformRegions name B N
      ∧ (N % (B + 1) = 1 → cover (regions (B : Int) (uniform name N)) name (N : Int) = 0) := by
  have hdm := Nat.div_add_mod N (B + 1)
  have hcast : ((B : Int) + 1) * ((N / (B + 1) : Nat) : Int) + ((N % (B + 1) : Nat) : Int)
      = (N : Int) := by
    have : (((B + 1) * (N / (B + 1)) + N % (B + 1) : Nat) : Int) = (N : Int) := by rw [hdm]
    simpa only [Nat.cast_add, Nat.cast_mul, Nat.cast_one] using this
  have hreg : regions (B : Int) (uniform name N) = uniformRegions name B N := by
    rcases loop_init_uniform (B : Int) name hn N with h | h
    · unfold regions uniformRegions
      simp only
      rw [h, uniform_loop name B hB N hN]
      simp only [flush]
      congr 1
      by_cases h2 : 2 ≤ N % (B + 1)
      · have h2' : (2 : Int) ≤ ((N % (B + 1) : Nat) : Int) := by exact_mod_cast h2
        rw [if_pos h2, if_pos (by linarith)]
      · have h2' : ((N % (B + 1) : Nat) : Int) < 2 := by
          have : N % (B + 1) < 2 := by omega
          exact_mod_cast this
        rw [if_neg h2, if_neg (by linarith)]
    · subst h
      simp [regions, uniform, uniformRegions, loop_nil, flush, State.init]
  refine ⟨hreg, ?_⟩
  intro h1
  rw [hreg]
  unfold uniformRegions cover
  rw [if_neg (by omega), List.append_nil, List.countP_eq_zero]
  intro g hg
  obtain ⟨k, hk, rfl⟩ := List.mem_map.mp hg
  have hk' : k + 1 ≤ N / (B + 1) := by
    have := List.mem_range.mp hk
    omega
  have hkc : ((k : Int) + 1) ≤ ((N / (B + 1) : Nat) : Int) := by exact_mod_cast hk'
  have hmul : ((k : Int) + 1) * ((B : Int) + 1)
      ≤ ((N / (B + 1) : Nat) : Int) * ((B : Int) + 1) :=
    mul_le_mul_of_nonneg_right hkc (by omega)
  have h1c : ((N % (B + 1) : Nat) : Int) = 1 := by exact_mod_cast h1
  simp only [fullRegion, Region.covers, decide_eq_true_eq, not_and, not_le]
  intro _ _
  linarith

/-- Ten positions under a budget of 3: the regions `chr1:1-4`, `chr1:5-8` and
the trailing `chr1:9-10`. -/
theorem uniform_closed_form_witness :
    (chr1 ≠ [] ∧ ((3 : Nat) : Int) < 9223372036854775808
      ∧ ((10 : Nat) : Int) + 1 < 9223372036854775808)
      ∧ regions ((3 : Nat) : Int) (uniform chr1 10) = uniformRegions chr1 3 10
      ∧ uniformRegions chr1 3 10 = [⟨chr1, 1, 4⟩, ⟨chr1, 5, 8⟩, ⟨chr1, 9, 10⟩]
      ∧ regions 3 (uniform chr1 10) = [⟨chr1, 1, 4⟩, ⟨chr1, 5, 8⟩, ⟨chr1, 9, 10⟩] :=
  ⟨⟨by decide, by decide, by decide⟩,
    (uniform_closed_form chr1 3 10 (by decide) (by decide) (by decide)).1, by decide, by decide⟩

/-! ## C18: weak well-formedness of the regions -/

/-- C18, as stated, fails when a position repeats: two records of depth 10 at
position 5 of "chr1" under a budget of 5 have non-decreasing positions, and the
second overrun prints `chr1:6-5`, a region with `start = end + 1`, although no
record of a different sequence follows. -/
theorem repeated_position_region :
    NamesNonEmpty sampleC18 ∧ NonDecreasing sampleC18 ∧ SingleSequence sampleC18
      ∧ regions 5 sampleC18 = [⟨chr1, 5, 5⟩, ⟨chr1, 6, 5⟩]
      ∧ ∃ g ∈ regions 5 sampleC18, g.start = g.stop + 1 := by
  decide

theorem inv2_step (bp : Int) {s : State} {r : Record} {rs : List Record}
    (h : Inv2 s (r :: rs)) : Inv2 (step bp s r).1 rs := by
  obtain ⟨hm, hf, hs⟩ := h
  have hr := hf r (List.mem_cons_self _ _)
  have hw : wrap64 (r.pos + 1) = r.pos + 1 := wrap64_eq hr.1 hr.2
  refine ⟨?_, fun x hx => hf x (List.mem_cons_of_mem _ hx), ?_⟩
  · rw [step_prevSeq, step_lastPos]; exact hm.2
  · have h1 := hm.1 r (by simp)
    rw [step_startPos, step_lastPos, hw]
    unfold startBefore
    split_ifs with h2 h3
    · omega
    · omega
    · have := h1 (not_not.mp h3)
      simp only at this
      omega

theorem inv2_loop (bp : Int) (xs : List Record) :
    ∀ {s : State} {ys : List Record}, Inv2 s (xs ++ ys) → Inv2 (loop bp s xs).1 ys := by
  induction xs with
  | nil => intro s ys h; exact h
  | cons x xs ih => intro s ys h; exact ih (inv2_step bp h)

theorem inv2_init {recs : List Record} (hn : NamesNonEmpty recs) (hm : NonDecreasing recs)
    (hf : PosFit recs) : Inv2 State.init recs := by
  refine ⟨⟨?_, hm⟩, hf, by simp [State.init]⟩
  intro b hb hseq
  cases recs with
  | nil => simp at hb
  | cons x xs =>
    simp only [List.head?_cons, Option.mem_def, Option.some.injEq] at hb
    subst hb
    exact absurd hseq.symm (hn x (List.mem_cons_self _ _))

/-- The regions printed in one iteration start at most one position behind
their end. -/
theorem step_region_bound (bp : Int) {s : State} {r : Record} {rs : List Record}
    (h : Inv2 s (r :: rs)) : ∀ g ∈ (step bp s r).2, g.start ≤ g.stop + 1 := by
  obtain ⟨hm, hf, hs⟩ := h
  have h1 := hm.1 r (by simp)
  intro g hg
  rw [step_out, List.mem_append] at hg
  rcases hg with hg | hg
  · split_ifs at hg
    · simp only [List.mem_singleton] at hg
      subst hg
      exact hs
    · simp at hg
  · split_ifs at hg
    · simp only [List.mem_singleton] at hg
      subst hg
      simp only
      unfold startBefore
      split_ifs with h3
      · omega
      · have := h1 (not_not.mp h3)
        simp only at this
        omega
    · simp at hg

theorem flush_region_lt (s : State) : ∀ g ∈ flush s, g.start < g.stop := by
  intro g hg
  unfold flush at hg
  split_ifs at hg with h
  · simp only [List.mem_singleton] at hg
    subst hg
    exact h
  · simp at hg

theorem regions_bound_from (bp : Int) (ys : List Record) :
    ∀ {s : State}, Inv2 s ys →
      ∀ g ∈ (loop bp s ys).2 ++ flush (loop bp s ys).1, g.start ≤ g.stop + 1 := by
  induction ys with
  | nil =>
    intro s _ g hg
    simp only [loop_nil, List.nil_append] at hg
    have := flush_region_lt s g hg
    omega
  | cons r rs ih =>
    intro s h g hg
    rw [loop_cons] at hg
    simp only [List.append_assoc, List.mem_append] at hg
    rcases hg with hg | hg
    · exact step_region_bound bp h g hg
    · exact ih (inv2_step bp h) g (List.mem_append.mpr hg)

/-- Under strictly increasing positions a record of the current sequence lies
behind the last position seen. -/
theorem head_strict (bp : Int) {pre : List Record} {b : Record} {post : List Record}
    (hn : NamesNonEmpty (pre ++ b :: post)) (hi : StrictlyIncreasing (pre ++ b :: post))
    (hs : (loop bp State.init pre).1.prevSeq = b.seq) :
    (loop bp State.init pre).1.lastPos < b.pos := by
  rcases List.eq_nil_or_concat pre with rfl | ⟨xs, l, rfl⟩
  · exact absurd hs.symm (hn b (by simp))
  · rw [List.concat_eq_append] at *
    rw [loop_snoc_state, step_prevSeq] at hs
    rw [loop_snoc_state, step_lastPos]
    have h := strictlyIncreasing_suffix xs (l :: b :: post) (by simpa using hi)
    exact h.1 b (by simp) hs

/-- The overrun block never prints a region with `start = end + 1` when the
positions are strictly increasing. -/
theorem startBefore_le (bp : Int) {pre : List Record} {b : Record} {post : List Record}
    (hn : NamesNonEmpty (pre ++ b :: post)) (hi : StrictlyIncreasing (pre ++ b :: post))
    (hv : Inv2 (loop bp State.init pre).1 (b :: post)) :
    startBefore (loop bp State.init pre).1 b ≤ b.pos := by
  unfold startBefore
  split_ifs with h
  · exact le_refl _
  · have := head_strict bp hn hi (not_not.mp h)
    have := hv.start_le
    omega

/-- C18 (amended). Weak well-formedness of the regions: on an input with
non-empty names and positions that are non-decreasing within each run (no
position being the largest `int64`), every emitted region satisfies
`start ≤ end + 1`, and the end-of-stream flush only prints regions with
`start < end`; whenever the last record `a` of a sequence triggers an overrun
and a record `b` of a different sequence follows, the region
`(a.seq, a.pos + 1, a.pos)` with `start = end + 1` is printed at `b`; and when
the positions are strictly increasing within each run, these are the only
emitted regions with `start = end + 1`. -/
theorem weak_wellformedness (bp : Int) (recs : List Record) (hn : NamesNonEmpty recs)
    (hm : NonDecreasing recs) (hf : PosFit recs) :
    (∀ g ∈ regions bp recs, g.start ≤ g.stop + 1)
      ∧ (∀ g ∈ flush (finalState bp recs), g.start < g.stop)
      ∧ (∀ pre a b post, recs = pre ++ a :: b :: post → a.seq ≠ b.seq →
          (overrun bp (seqChange (loop bp State.init pre).1 a).1 a).2 ≠ [] →
          (⟨a.seq, a.pos + 1, a.pos⟩ : Region) ∈ (step bp (loop bp State.init (pre ++ [a])).1 b).2)
      ∧ (StrictlyIncreasing recs → ∀ pre b post, recs = pre ++ b :: post →
          ∀ g ∈ (step bp (loop bp State.init pre).1 b).2, g.start = g.stop + 1 →
          ∃ pre' a, pre = pre' ++ [a] ∧ a.seq ≠ b.seq
            ∧ (overrun bp (seqChange (loop bp State.init pre').1 a).1 a).2 ≠ []
            ∧ g = ⟨a.seq, a.pos + 1, a.pos⟩) := by
  have hinv := inv2_init hn hm hf
  refine ⟨regions_bound_from bp recs hinv, flush_region_lt _, ?_, ?_⟩
  · intro pre a b post hrecs hab ho
    have ha : a ∈ recs := by rw [hrecs]; simp
    have hfa := hf a ha
    have hO := (overrun_out_ne_nil bp _ a).mp ho
    rw [loop_snoc_state, step_out, step_prevSeq, step_startPos, if_pos hO, step_lastPos,
      wrap64_eq hfa.1 hfa.2, if_pos ⟨hab, hn a ha⟩]
    simp
  · intro hi pre b post hrecs g hg hgs
    subst hrecs
    have hv : Inv2 (loop bp State.init pre).1 (b :: post) := inv2_loop bp pre hinv
    rw [step_out, List.mem_append] at hg
    rcases hg with hg | hg
    · split_ifs at hg with hcl
      · simp only [List.mem_singleton] at hg
        subst hg
        simp only at hgs
        rcases List.eq_nil_or_concat pre with rfl | ⟨pre', a, rfl⟩
        · exact absurd rfl hcl.2
        · rw [List.concat_eq_append] at *
          have hn' : NamesNonEmpty (pre' ++ a :: b :: post) := by
            simpa [List.append_assoc] using hn
          have hi' : StrictlyIncreasing (pre' ++ a :: b :: post) := by
            simpa [List.append_assoc] using hi
          have hinv' : Inv2 State.init (pre' ++ a :: b :: post) := by
            simpa [List.append_assoc] using hinv
          have hv' : Inv2 (loop bp State.init pre').1 (a :: b :: post) := inv2_loop bp pre' hinv'
          have hsb := startBefore_le bp hn' hi' hv'
          have hfa := hf a (by simp)
          rw [loop_snoc_state] at hgs hcl ⊢
          rw [step_prevSeq] at hcl ⊢
          rw [step_startPos, step_lastPos] at hgs
          rw [step_startPos, step_lastPos]
          by_cases hO : Overruns bp (loop bp State.init pre').1 a
          · refine ⟨pre', a, rfl, hcl.1, (overrun_out_ne_nil bp _ a).mpr hO, ?_⟩
            rw [if_pos hO, wrap64_eq hfa.1 hfa.2]
          · rw [if_neg hO] at hgs
            omega
      · simp at hg
    · split_ifs at hg
      · simp only [List.mem_singleton] at hg
        subst hg
        simp only at hgs
        have := startBefore_le bp hn hi hv
        omega
      · simp at hg

/-- Records on "chr1" at 1 and 2 (depth 10) and on "chr2" at 1, budget 5: the
overrun at the last record of "chr1" is followed by `chr1:3-2` at the sequence
change. -/
theorem weak_wellformedness_witness :
    (NamesNonEmpty sampleC18b ∧ NonDecreasing sampleC18b ∧ PosFit sampleC18b)
      ∧ (∀ g ∈ regions 5 sampleC18b, g.start ≤ g.stop + 1)
      ∧ regions 5 sampleC18b = [⟨chr1, 1, 1⟩, ⟨chr1, 2, 2⟩, ⟨chr1, 3, 2⟩] :=
  ⟨⟨by decide, by decide, by decide⟩,
    (weak_wellformedness 5 sampleC18b (by decide) (by decide) (by decide)).1, by decide⟩

/-! ## C19: the two passes read the same depth -/

theorem sumLoop_of_parsed (lines : List Bytes) :
    ∀ (sum : Int) (recs : List Record), lines.map parseLine = recs.map some →
      sumLoop sum lines = some (recs.foldl (fun acc r => wrap64 (acc + r.depth)) sum) := by
  induction lines with
  | nil =>
    intro sum recs h
    cases recs with
    | nil => rfl
    | cons r rs => simp at h
  | cons b bs ih =>
    intro sum recs h
    cases recs with
    | nil => simp at h
    | cons r rs =>
      simp only [List.map_cons, List.cons.injEq] at h
      simp only [sumLoop, parseDepth_eq, h.1, Option.map_some', List.foldl_cons]
      exact ih _ rs h.2

theorem foldl_wrap_eq (recs : List Record) :
    ∀ (sum : Int), 0 ≤ sum → (∀ r ∈ recs, 0 ≤ r.depth) →
      sum + totalDepth recs < 9223372036854775808 →
      recs.foldl (fun acc r => wrap64 (acc + r.depth)) sum = sum + totalDepth recs := by
  induction recs with
  | nil => intro sum _ _ _; simp [totalDepth]
  | cons r rs ih =>
    intro sum h0 hd hfit
    have hr := hd r (List.mem_cons_self _ _)
    have hrs := totalDepth_nonneg (fun y hy => hd y (List.mem_cons_of_mem _ hy))
    rw [totalDepth_cons] at hfit ⊢
    rw [List.foldl_cons, wrap64_eq (by omega) (by omega),
      ih _ (by omega) (fun y hy => hd y (List.mem_cons_of_mem _ hy)) (by omega)]
    ring

/-- C19. The two passes read the same depth: on every line the parsing loop of
`sumColumnThree` computes the depth that the parsing loop of `calculateRegions`
computes (and fails where that one fails, so in particular they agree on every
line with at least two tab bytes); hence on lines that parse to `recs` the
total returned by `sumColumnThree` is the sum of the depths of `recs` as
`int64` additions produce it, which is their arithmetic sum when the depths are
non-negative and sum to an `int64`. -/
theorem same_depth (lines : List Bytes) (recs : List Record)
    (h : lines.map parseLine = recs.map some) :
    (∀ b : Bytes, parseDepth b = (parseLine b).map Record.depth)
      ∧ (∀ b : Bytes, 2 ≤ b.count tab →
          ∃ r, parseLine b = some r ∧ parseDepth b = some r.depth)
      ∧ sumColumnThree lines = some (wrapSum recs)
      ∧ (DepthsFit recs → sumColumnThree lines = some (totalDepth recs)) := by
  have hs : sumColumnThree lines = some (wrapSum recs) := sumLoop_of_parsed lines 0 recs h
  refine ⟨parseDepth_eq, ?_, hs, ?_⟩
  · intro b hb
    have := (parseLine_isSome_iff b).mpr hb
    obtain ⟨r, hr⟩ := Option.isSome_iff_exists.mp this
    exact ⟨r, hr, by rw [parseDepth_eq, hr]; rfl⟩
  · intro hd
    rw [hs]
    unfold wrapSum
    rw [foldl_wrap_eq recs 0 (le_refl _) hd.1 (by have := hd.2; omega), zero_add]

/-- The lines "chr1 TAB 1 TAB 12" and "chr1 TAB 2 TAB 30": both passes read the
depths 12 and 30, and `sumColumnThree` returns 42. -/
theorem same_depth_witness :
    (sampleC10.map DepthRow.line).map parseLine
        = ([⟨chr1, 1, 12⟩, ⟨chr1, 2, 30⟩] : List Record).map some
      ∧ sumColumnThree (sampleC10.map DepthRow.line) = some 42 :=
  ⟨by decide,
    (same_depth (sampleC10.map DepthRow.line) [⟨chr1, 1, 12⟩, ⟨chr1, 2, 30⟩] (by decide)).2.2.1⟩

end Fastar
